import Mathlib

/-!
Verification of the Aurora colour-grading extension.

This file gives a shallow embedding of the core of the Aurora code base:

* src/shared/shader.ts — the SkSL colour-grading shader (rgb2hsv, hsv2rgb,
  the four blend functions, computeFeather, main) and the uniform-packing
  helper getShaderUniforms;
* src/shared/types.ts — the AuroraConfig metadata shape and the
  isAuroraConfig type guard;
* src/background/effectManager.ts — the snapshot cache, effectSnapshot,
  getCoordOffset, buildAuroraEffect and the reconcileEffects pass.

Machine floats of the source are modelled as exact rationals.  The one
operation with no exact rational counterpart, GLSL sqrt (used inside
blendSoftLight and inside length() in computeFeather), is threaded through
the shader definitions as an explicit function parameter `sq`; every
theorem about the shader quantifies over it or instantiates it, and no
statement below depends on its value.
-/

set_option linter.unusedVariables false

/-! ## GLSL scalar builtins (exact rational versions) -/

/-- GLSL step(edge, x): 0.0 when x < edge, 1.0 otherwise. -/
def stepQ (edge x : ℚ) : ℚ := if x < edge then 0 else 1

/-- GLSL mix(x, y, a) = x*(1-a) + y*a. -/
def mixQ (x y a : ℚ) : ℚ := x * (1 - a) + y * a

/-- GLSL clamp(x, lo, hi) = min(max(x, lo), hi). -/
def clampQ (x lo hi : ℚ) : ℚ := min (max x lo) hi

/-- GLSL fract(x) = x - floor(x). -/
def fractQ (x : ℚ) : ℚ := x - (Rat.floor x : ℚ)

/-- GLSL smoothstep(e0, e1, x): Hermite interpolation of the clamped
normalised position.  (Only ever applied with e0 < e1 in this code:
computeFeather early-returns when feather = 0.) -/
def smoothstepQ (e0 e1 x : ℚ) : ℚ :=
  let t := clampQ ((x - e0) / (e1 - e0)) 0 1
  t * t * (3 - 2 * t)

/-- Componentwise mix of two vec3 values with a scalar interpolant. -/
def mix3s (x y : ℚ × ℚ × ℚ) (a : ℚ) : ℚ × ℚ × ℚ :=
  (mixQ x.1 y.1 a, mixQ x.2.1 y.2.1 a, mixQ x.2.2 y.2.2 a)

/-! ## shader.ts — colour model utilities

Direct transcription of the SkSL functions in getShaderCode.  vec3/vec4
values become nested pairs; the swizzles are expanded componentwise. -/

/-- rgb2hsv from the shader source (including its 1e-10 epsilon guards). -/
def rgb2hsv (c : ℚ × ℚ × ℚ) : ℚ × ℚ × ℚ :=
  -- K = vec4(0.0, -1.0/3.0, 2.0/3.0, -1.0)
  -- p = mix(vec4(c.bg, K.wz), vec4(c.gb, K.xy), step(c.b, c.g))
  let t1 := stepQ c.2.2 c.2.1
  let px := mixQ c.2.2 c.2.1 t1
  let py := mixQ c.2.1 c.2.2 t1
  let pz := mixQ (-1) 0 t1
  let pw := mixQ (2/3) (-1/3) t1
  -- q = mix(vec4(p.xyw, c.r), vec4(c.r, p.yzx), step(p.x, c.r))
  let t2 := stepQ px c.1
  let qx := mixQ px c.1 t2
  let qy := mixQ py py t2
  let qz := mixQ pw pz t2
  let qw := mixQ c.1 px t2
  let d := qx - min qw qy
  let e : ℚ := 1 / 10000000000
  (|qz + (qw - qy) / (6 * d + e)|, d / (qx + e), qx)

/-- hsv2rgb from the shader source. -/
def hsv2rgb (c : ℚ × ℚ × ℚ) : ℚ × ℚ × ℚ :=
  -- K = vec4(1.0, 2.0/3.0, 1.0/3.0, 3.0)
  -- p = abs(fract(c.xxx + K.xyz) * 6.0 - K.www)
  let p1 := |fractQ (c.1 + 1) * 6 - 3|
  let p2 := |fractQ (c.1 + 2/3) * 6 - 3|
  let p3 := |fractQ (c.1 + 1/3) * 6 - 3|
  -- c.z * mix(K.xxx, clamp(p - K.xxx, 0.0, 1.0), c.y)
  (c.2.2 * mixQ 1 (clampQ (p1 - 1) 0 1) c.2.1,
   c.2.2 * mixQ 1 (clampQ (p2 - 1) 0 1) c.2.1,
   c.2.2 * mixQ 1 (clampQ (p3 - 1) 0 1) c.2.1)

/-- blendMultiply(base, blend) = base * blend, componentwise. -/
def blendMultiply (base blend : ℚ × ℚ × ℚ) : ℚ × ℚ × ℚ :=
  (base.1 * blend.1, base.2.1 * blend.2.1, base.2.2 * blend.2.2)

/-- One channel of blendOverlay. -/
def overlayChan (b t : ℚ) : ℚ :=
  mixQ (2 * b * t) (1 - 2 * (1 - b) * (1 - t)) (stepQ (1/2) b)

/-- blendOverlay from the shader source. -/
def blendOverlay (base blend : ℚ × ℚ × ℚ) : ℚ × ℚ × ℚ :=
  (overlayChan base.1 blend.1, overlayChan base.2.1 blend.2.1,
   overlayChan base.2.2 blend.2.2)

/-- One channel of blendSoftLight; sq is the GLSL sqrt. -/
def softLightChan (sq : ℚ → ℚ) (b t : ℚ) : ℚ :=
  let d := mixQ (sq b) (((16 * b - 12) * b + 4) * b) (stepQ (1/4) b)
  mixQ (b - (1 - 2 * t) * b * (1 - b)) (b + (2 * t - 1) * (d - b)) (stepQ (1/2) t)

/-- blendSoftLight from the shader source (W3C formula). -/
def blendSoftLight (sq : ℚ → ℚ) (base blend : ℚ × ℚ × ℚ) : ℚ × ℚ × ℚ :=
  (softLightChan sq base.1 blend.1, softLightChan sq base.2.1 blend.2.1,
   softLightChan sq base.2.2 blend.2.2)

/-- blendColor: hue and saturation from the tint, V from the base. -/
def blendColor (base blend : ℚ × ℚ × ℚ) : ℚ × ℚ × ℚ :=
  let blendHSV := rgb2hsv blend
  let baseHSV := rgb2hsv base
  hsv2rgb (blendHSV.1, blendHSV.2.1, baseHSV.2.2)

/-! ## shader.ts — uniforms and config -/

/-- AuroraConfig (src/shared/types.ts).  The declared interface has the
fields s, l, h, o (numbers) and e (boolean); the shader and snapshot code
additionally read the optional fields b (blend mode), f (feather) and
fi (feather invert) with ?? / truthiness defaults, so those are modelled
as Option values. -/
structure AuroraConfig where
  s : ℚ
  l : ℚ
  h : ℚ
  o : ℚ
  e : Bool
  b : Option ℚ
  f : Option ℚ
  fi : Option Bool
deriving DecidableEq, Repr

/-- ShaderGeometry (src/shared/shader.ts). -/
structure ShaderGeometry where
  coordOffset : ℚ × ℚ
  itemSize : ℚ × ℚ
  shapeType : ℚ
deriving DecidableEq, Repr

/-- The shader uniform set produced by getShaderUniforms (the source
returns a name/value array; each named entry becomes a field here). -/
structure ShaderUniforms where
  saturation : ℚ
  lightness : ℚ
  hue : ℚ
  opacity : ℚ
  blendMode : ℚ
  coordOffset : ℚ × ℚ
  feather : ℚ
  invertFeather : ℚ
  itemSize : ℚ × ℚ
  shapeType : ℚ
deriving DecidableEq, Repr

/-- getShaderUniforms (src/shared/shader.ts): packs config values into the
uniform array.  saturation = s/100, lightness = l/100, hue = h/360,
opacity = o/100, blendMode = (b ?? 0) * 1.0, feather = (f ?? 0)/100,
invertFeather = (fi ?? false) ? 1 : 0, plus the geometry fields. -/
def getShaderUniforms (config : AuroraConfig) (geometry : ShaderGeometry) : ShaderUniforms :=
  { saturation := config.s / 100
    lightness := config.l / 100
    hue := config.h / 360
    opacity := config.o / 100
    blendMode := config.b.getD 0 * 1
    coordOffset := geometry.coordOffset
    feather := config.f.getD 0 / 100
    invertFeather := if config.fi.getD false then 1 else 0
    itemSize := geometry.itemSize
    shapeType := geometry.shapeType * 1 }

/-- DEFAULT_GEOMETRY from shader.ts. -/
def DEFAULT_GEOMETRY : ShaderGeometry :=
  { coordOffset := (0, 0), itemSize := (1, 1), shapeType := 0 }

/-! ## shader.ts — computeFeather and main -/

/-- computeFeather from the shader source.  Note the order of operations:
the feather <= 0 early return fires BEFORE the invertFeather flip is
applied, so with feather = 0 the function yields 1 regardless of
invertFeather.  sq is GLSL sqrt (used by length()). -/
def computeFeather (sq : ℚ → ℚ) (u : ShaderUniforms) (coord : ℚ × ℚ) : ℚ :=
  if u.feather ≤ 0 then 1
  else
    let halfSize : ℚ × ℚ := (u.itemSize.1 * (1/2), u.itemSize.2 * (1/2))
    let centre := halfSize
    -- isCircle = step(0.5, shapeType) * step(shapeType, 1.5)
    let isCircle := stepQ (1/2) u.shapeType * stepQ u.shapeType (3/2)
    let norm : ℚ × ℚ := ((coord.1 - centre.1) / halfSize.1, (coord.2 - centre.2) / halfSize.2)
    let ellipseNorm := sq (norm.1 * norm.1 + norm.2 * norm.2)
    let distFromEdge : ℚ × ℚ := (halfSize.1 - |coord.1 - centre.1|, halfSize.2 - |coord.2 - centre.2|)
    let minHalf := min halfSize.1 halfSize.2
    let rectNorm := 1 - min distFromEdge.1 distFromEdge.2 / minHalf
    let edgeNorm := mixQ rectNorm ellipseNorm isCircle
    let innerEdge := 1 - u.feather
    let fade := 1 - smoothstepQ innerEdge 1 edgeNorm
    mixQ fade (1 - fade) u.invertFeather

/-- The value of main(coord) as the shipped shader source actually returns
it.  The source computes the full grading pipeline into `result`, but then
executes the two lines under the "DEBUG: Uncomment to visualise" comment,
which are NOT commented out, so the first return statement yields the
coordinate-visualisation gradient half4(coord/itemSize, 0, 1); the
`return half4(result, color.a)` after it is unreachable.  sceneColor is
the pixel sampled by scene.eval(uv) (the input pixel colour). -/
def shaderMain (sq : ℚ → ℚ) (u : ShaderUniforms) (coord : ℚ × ℚ)
    (sceneColor : ℚ × ℚ × ℚ × ℚ) : ℚ × ℚ × ℚ × ℚ :=
  let rgb : ℚ × ℚ × ℚ := (sceneColor.1, sceneColor.2.1, sceneColor.2.2.1)
  let alpha := sceneColor.2.2.2
  let hsv := rgb2hsv rgb
  let hsv1 : ℚ × ℚ × ℚ := (hsv.1, clampQ (hsv.2.1 * u.saturation) 0 1, hsv.2.2)
  let hsv2 : ℚ × ℚ × ℚ := (hsv1.1, hsv1.2.1, clampQ (hsv1.2.2 * u.lightness) 0 1)
  let adjusted := hsv2rgb hsv2
  let tint := hsv2rgb (fractQ u.hue, 1, 1)
  let blended0 := blendMultiply adjusted tint
  let blended1 := mix3s blended0 (blendOverlay adjusted tint)
      (stepQ (1/2) u.blendMode * stepQ u.blendMode (3/2))
  let blended2 := mix3s blended1 (blendSoftLight sq adjusted tint)
      (stepQ (3/2) u.blendMode * stepQ u.blendMode (5/2))
  let blended3 := mix3s blended2 (blendColor adjusted tint) (stepQ (5/2) u.blendMode)
  let graded := mix3s adjusted blended3 u.opacity
  let fade := computeFeather sq u coord
  let result := mix3s rgb graded fade
  let dbg : ℚ × ℚ := (coord.1 / u.itemSize.1, coord.2 / u.itemSize.2)
  (dbg.1, dbg.2, 0, 1)

/-- The value the unreachable second return of main (return half4(result,
color.a)) would produce: the documented grading pipeline output. -/
def shaderMainDeadReturn (sq : ℚ → ℚ) (u : ShaderUniforms) (coord : ℚ × ℚ)
    (sceneColor : ℚ × ℚ × ℚ × ℚ) : ℚ × ℚ × ℚ × ℚ :=
  let rgb : ℚ × ℚ × ℚ := (sceneColor.1, sceneColor.2.1, sceneColor.2.2.1)
  let alpha := sceneColor.2.2.2
  let hsv := rgb2hsv rgb
  let hsv1 : ℚ × ℚ × ℚ := (hsv.1, clampQ (hsv.2.1 * u.saturation) 0 1, hsv.2.2)
  let hsv2 : ℚ × ℚ × ℚ := (hsv1.1, hsv1.2.1, clampQ (hsv1.2.2 * u.lightness) 0 1)
  let adjusted := hsv2rgb hsv2
  let tint := hsv2rgb (fractQ u.hue, 1, 1)
  let blended0 := blendMultiply adjusted tint
  let blended1 := mix3s blended0 (blendOverlay adjusted tint)
      (stepQ (1/2) u.blendMode * stepQ u.blendMode (3/2))
  let blended2 := mix3s blended1 (blendSoftLight sq adjusted tint)
      (stepQ (3/2) u.blendMode * stepQ u.blendMode (5/2))
  let blended3 := mix3s blended2 (blendColor adjusted tint) (stepQ (5/2) u.blendMode)
  let graded := mix3s adjusted blended3 u.opacity
  let fade := computeFeather sq u coord
  let result := mix3s rgb graded fade
  (result.1, result.2.1, result.2.2, alpha)

/-! ## types.ts — metadata values and the isAuroraConfig type guard

Metadata arriving from external storage is untyped; JsonVal models the
JavaScript values it can hold.  Arrays have typeof "object" but none of
the looked-up properties, so they fail the field checks exactly as a
plain non-object does. -/

/-- A JavaScript metadata value. -/
inductive JsonVal where
  | jnull
  | jbool (b : Bool)
  | jnum (q : ℚ)
  | jstr (s : String)
  | jarr (elems : List JsonVal)
  | jobj (fields : List (String × JsonVal))

/-- Property lookup on an object literal (first binding wins, as in a
JavaScript object with distinct keys). -/
def jlookup : List (String × JsonVal) → String → Option JsonVal
  | [], _ => none
  | (k', v) :: rest, k => if k' = k then some v else jlookup rest k

/-- Property access val[k] for an arbitrary value: undefined (none)
unless val is an object literal that has the property. -/
def getField : JsonVal → String → Option JsonVal
  | .jobj fields, k => jlookup fields k
  | _, _ => none

/-- typeof check: does this looked-up value exist and hold a number? -/
def isNumV : Option JsonVal → Bool
  | some (.jnum _) => true
  | _ => false

/-- typeof check: does this looked-up value exist and hold a boolean? -/
def isBoolV : Option JsonVal → Bool
  | some (.jbool _) => true
  | _ => false

/-- isAuroraConfig (src/shared/types.ts): val is a non-null object and
obj.s, obj.l, obj.h, obj.o are numbers and obj.e is a boolean.  The
b, f and fi fields are NOT examined.  A jarr value has typeof "object"
in JavaScript, but its property lookups for these names are undefined,
so the conjunction is false; all other non-objects fail the typeof
check directly. -/
def isAuroraConfig : JsonVal → Bool
  | .jobj fields =>
      isNumV (jlookup fields "s") && isNumV (jlookup fields "l") &&
      isNumV (jlookup fields "h") && isNumV (jlookup fields "o") &&
      isBoolV (jlookup fields "e")
  | _ => false

/-! ## effectManager.ts — items, snapshots, coordinate offsets -/

/-- The attributes of an Owlbear Rodeo scene item consumed by the effect
manager.  config holds the already-validated Aurora metadata under the
plugin config key: none both when the key is absent and when
isAuroraConfig rejects the stored value (see toAuroraConfig below for
the bridge). -/
structure Item where
  id : Nat
  layer : String
  px : ℚ
  py : ℚ
  rotation : ℚ
  sx : ℚ
  sy : ℚ
  visible : Bool
  type : String
  strokeWidth : Option ℚ
  width : ℚ
  height : ℚ
  config : Option AuroraConfig
deriving DecidableEq, Repr

/-- SDK isShape guard: the item is a shape. -/
def isShapeI (item : Item) : Bool := item.type = "SHAPE"

/-- The fields joined (with "|") by effectSnapshot, as a record.  The
serialised forms of the fields never contain the separator and number
serialisation is injective, so two snapshot strings are equal exactly
when these records are equal. -/
structure Snapshot where
  s : ℚ
  l : ℚ
  h : ℚ
  o : ℚ
  e : Bool
  b : ℚ
  px : ℚ
  py : ℚ
  rotation : ℚ
  sx : ℚ
  sy : ℚ
  visible : Bool
  type : String
  strokeWidth : ℚ
  shapeW : ℚ
  shapeH : ℚ
deriving DecidableEq, Repr

/-- effectSnapshot (src/background/effectManager.ts): serialises
config.s, l, h, o, e, b ?? 0 plus the parent transform and shape metrics.
The f and fi config fields are not included. -/
def effectSnapshot (config : AuroraConfig) (item : Item) : Snapshot :=
  { s := config.s
    l := config.l
    h := config.h
    o := config.o
    e := config.e
    b := config.b.getD 0
    px := item.px
    py := item.py
    rotation := item.rotation
    sx := item.sx
    sy := item.sy
    visible := item.visible
    type := item.type
    strokeWidth := if isShapeI item then item.strokeWidth.getD 0 else 0
    shapeW := if isShapeI item then item.width else 0
    shapeH := if isShapeI item then item.height else 0 }

/-- Visual bounds returned by OBR.scene.items.getItemBounds. -/
structure Bounds where
  minX : ℚ
  minY : ℚ
  maxX : ℚ
  maxY : ℚ
deriving DecidableEq, Repr

/-- SHAPE_ATTACHMENT_PADDING (effectManager.ts): fixed scene-space
padding, measured at 49 units. -/
def SHAPE_ATTACHMENT_PADDING : ℚ := 49

/-- getCoordOffset (src/background/effectManager.ts).  The bounds query
is an external call that can fail; its outcome is passed in as an
Option.  For shapes with a successful query the offset is
-(position - bounds.min + SHAPE_ATTACHMENT_PADDING) per axis; a failed
query falls back to (0,0); non-shapes never query and return (0,0). -/
def getCoordOffset (item : Item) (bounds : Option Bounds) : ℚ × ℚ :=
  if isShapeI item then
    match bounds with
    | some b =>
        (-(item.px - b.minX + SHAPE_ATTACHMENT_PADDING),
         -(item.py - b.minY + SHAPE_ATTACHMENT_PADDING))
    | none => (0, 0)
  else (0, 0)

/-! ## effectManager.ts — local effects and the snapshot cache

JavaScript Maps are modelled as association lists with the Map's
insertion-order and overwrite semantics (set on an existing key replaces
the value in place; iteration follows first-insertion order). -/

/-- A local scene item as the effect manager sees it.  tagged models
"metadata[EFFECT_META_KEY] !== undefined" (the Aurora effect marker);
source models the sourceItemId back-reference tag.  cfg and offset carry
the data buildAuroraEffect bakes into the effect (shader uniforms and
mirrored transform); arbitrary pre-existing local items may hold
anything in these fields. -/
structure LocalEffect where
  id : Nat
  tagged : Bool
  source : Option Nat
  px : ℚ
  py : ℚ
  rotation : ℚ
  sx : ℚ
  sy : ℚ
  visible : Bool
  cfg : Option AuroraConfig
  offset : ℚ × ℚ
deriving DecidableEq, Repr

/-- Map.get on an association list. -/
def mget {α : Type} : List (Nat × α) → Nat → Option α
  | [], _ => none
  | p :: rest, k => if p.1 = k then some p.2 else mget rest k

/-- Map.has. -/
def mhas {α : Type} (m : List (Nat × α)) (k : Nat) : Bool := (mget m k).isSome

/-- Map.set: overwrite in place when the key exists, append otherwise. -/
def mset {α : Type} : List (Nat × α) → Nat → α → List (Nat × α)
  | [], k, v => [(k, v)]
  | p :: rest, k, v => if p.1 = k then (k, v) :: rest else p :: mset rest k v

/-- Map.delete. -/
def mdel {α : Type} : List (Nat × α) → Nat → List (Nat × α)
  | [], _ => []
  | p :: rest, k => if p.1 = k then mdel rest k else p :: mdel rest k

/-- The module state of effectManager.ts: the local effect items present
in the scene, the snapshotCache, and the id supply used for the ids the
SDK generates for newly built effects (fresh ids are nextId, nextId+1,
...; every id already in the scene is smaller). -/
structure ReconcileState where
  effects : List LocalEffect
  cache : List (Nat × Snapshot)
  nextId : Nat
deriving DecidableEq, Repr

/-- The scene state before the extension ever ran: no local Aurora
effects, empty snapshot cache. -/
def initialState : ReconcileState := { effects := [], cache := [], nextId := 0 }

/-- findAllEffects: local items whose Aurora-effect metadata tag is set. -/
def findAllEffects (effects : List LocalEffect) : List LocalEffect :=
  effects.filter (fun e => e.tagged)

/-- The effectsBySource Map: iterate the found effects, keying each by its
sourceItemId tag when present (a falsy/absent tag is skipped). -/
def ebsFold (acc : List (Nat × LocalEffect)) : List LocalEffect → List (Nat × LocalEffect)
  | [] => acc
  | e :: rest =>
      ebsFold (match e.source with
               | some sid => mset acc sid e
               | none => acc) rest

/-- Build the effectsBySource Map of reconcileEffects. -/
def effectsBySourceOf (effects : List LocalEffect) : List (Nat × LocalEffect) :=
  ebsFold [] (findAllEffects effects)

/-- The auroraItems Map: MAP-layer items whose config metadata passed
isAuroraConfig, keyed by item id. -/
def aiFold (acc : List (Nat × (Item × AuroraConfig))) : List Item → List (Nat × (Item × AuroraConfig))
  | [] => acc
  | item :: rest =>
      aiFold (if item.layer = "MAP" then
                match item.config with
                | some c => mset acc item.id (item, c)
                | none => acc
              else acc) rest

/-- Build the auroraItems Map of reconcileEffects. -/
def auroraItemsOf (items : List Item) : List (Nat × (Item × AuroraConfig)) :=
  aiFold [] items

/-- buildAuroraEffect: an ATTACHMENT effect mirroring the parent's
transform, tagged with the Aurora marker and the source id, carrying the
shader with uniforms packed from the config and the coordinate offset
(getCoordOffset may hit a failing bounds query, which it absorbs).
newId is the id the SDK generates for the built item. -/
def buildAuroraEffect (parent : Item) (config : AuroraConfig)
    (bounds : Nat → Option Bounds) (newId : Nat) : LocalEffect :=
  { id := newId
    tagged := true
    source := some parent.id
    px := parent.px
    py := parent.py
    rotation := parent.rotation
    sx := parent.sx
    sy := parent.sy
    visible := parent.visible
    cfg := some config
    offset := getCoordOffset parent (bounds parent.id) }

/-- The first loop of reconcileEffects: every effectsBySource entry whose
source id has no aurora item is scheduled for removal and its cache
entry is dropped. -/
def removalLoop (ai : List (Nat × (Item × AuroraConfig))) :
    List (Nat × LocalEffect) → List Nat → List (Nat × Snapshot) →
    List Nat × List (Nat × Snapshot)
  | [], ids, cache => (ids, cache)
  | (sid, eff) :: rest, ids, cache =>
      if mhas ai sid then removalLoop ai rest ids cache
      else removalLoop ai rest (ids ++ [eff.id]) (mdel cache sid)

/-- Accumulated output of the second reconcile loop. -/
structure PassOut where
  ids : List Nat
  adds : List LocalEffect
  cache : List (Nat × Snapshot)
  nid : Nat
deriving DecidableEq, Repr

/-- The second loop of reconcileEffects: skip items whose cached snapshot
matches while an effect exists; otherwise schedule the old effect's
removal (deduplicated), build a replacement when the config is enabled,
and update the cache entry even for disabled configs. -/
def addLoop (ebs : List (Nat × LocalEffect)) (bounds : Nat → Option Bounds) :
    List (Nat × (Item × AuroraConfig)) →
    List Nat → List LocalEffect → List (Nat × Snapshot) → Nat → PassOut
  | [], ids, adds, cache, nid => { ids := ids, adds := adds, cache := cache, nid := nid }
  | (itemId, (item, config)) :: rest, ids, adds, cache, nid =>
      let snap := effectSnapshot config item
      if mget cache itemId = some snap ∧ mhas ebs itemId = true then
        addLoop ebs bounds rest ids adds cache nid
      else
        let ids' := match mget ebs itemId with
          | some ex => if ex.id ∈ ids then ids else ids ++ [ex.id]
          | none => ids
        let adds' := if config.e then adds ++ [buildAuroraEffect item config bounds nid] else adds
        let nid' := if config.e then nid + 1 else nid
        addLoop ebs bounds rest ids' adds' (mset cache itemId snap) nid'

/-- Both loops of a reconcile pass (everything before the batched SDK
calls): the scheduled removals, the built additions, the updated cache
and the advanced id supply. -/
def passCompute (st : ReconcileState) (items : List Item)
    (bounds : Nat → Option Bounds) : PassOut :=
  let ebs := effectsBySourceOf st.effects
  let ai := auroraItemsOf items
  let (ids1, cache1) := removalLoop ai ebs [] st.cache
  addLoop ebs bounds ai ids1 [] cache1 st.nextId

/-- The ids a pass hands to the batched OBR.scene.local.deleteItems call
(the call is only issued when this list is nonempty). -/
def passIdsToRemove (st : ReconcileState) (items : List Item)
    (bounds : Nat → Option Bounds) : List Nat :=
  (passCompute st items bounds).ids

/-- The effects a pass hands to the batched OBR.scene.local.addItems call
(the call is only issued when this list is nonempty). -/
def passAdds (st : ReconcileState) (items : List Item)
    (bounds : Nat → Option Bounds) : List LocalEffect :=
  (passCompute st items bounds).adds

/-- Inputs of one reconcile pass: the item set delivered by the change
event, the bounds-query oracle, and failure switches for the three
external calls a pass awaits directly (findAllEffects / getItems at the
start, then the batched deleteItems and addItems; a getItemBounds
failure is already absorbed inside getCoordOffset). -/
structure PassInput where
  items : List Item
  bounds : Nat → Option Bounds
  failFind : Bool
  failDelete : Bool
  failAdd : Bool

/-- One run of the try block of reconcileEffects: the Except component
tells whether some awaited call threw (the error that the catch block
then logs), and the state component is the module state at that moment —
all cache mutations happen inside the two loops, BEFORE the batched
deleteItems/addItems calls, so they persist when a batched call throws.
deleteItems([]) / addItems([]) are not issued; issuing them with an
empty list is indistinguishable in state, so the state update is written
unconditionally. -/
def reconcileAttempt (st : ReconcileState) (inp : PassInput) :
    Except Unit Unit × ReconcileState :=
  if inp.failFind then (.error (), st)
  else
    let out := passCompute st inp.items inp.bounds
    let stL : ReconcileState := { st with cache := out.cache, nextId := out.nid }
    if out.ids ≠ [] ∧ inp.failDelete then (.error (), stL)
    else
      let stD : ReconcileState :=
        { stL with effects := stL.effects.filter (fun e => decide (e.id ∉ out.ids)) }
      if out.adds ≠ [] ∧ inp.failAdd then (.error (), stD)
      else (.ok (), { stD with effects := stD.effects ++ out.adds })

/-- reconcileEffects: the try body wrapped in the catch that logs and
swallows the error, leaving the module state as the attempt left it. -/
def reconcileEffects (st : ReconcileState) (inp : PassInput) : ReconcileState :=
  (reconcileAttempt st inp).2

/-- A completed reconcile pass: no external call failed. -/
def reconcileOk (st : ReconcileState) (items : List Item)
    (bounds : Nat → Option Bounds) : ReconcileState :=
  reconcileEffects st
    { items := items, bounds := bounds,
      failFind := false, failDelete := false, failAdd := false }

/-- States of the local attachment set reachable from no attachments by
completed reconcile passes. -/
inductive Reachable : ReconcileState → Prop where
  | base : Reachable initialState
  | step (s : ReconcileState) (items : List Item) (bounds : Nat → Option Bounds) :
      Reachable s → Reachable (reconcileOk s items bounds)

/-- The number of RenderAttachments (Aurora-tagged local effects) whose
source-id tag equals x. -/
def attachCount (effects : List LocalEffect) (x : Nat) : Nat :=
  effects.countP (fun e => e.tagged && e.source == some x)

/-! ## Concrete values used by closed statements

sqId stands in for GLSL sqrt in closed statements; no result below
depends on which function is used (the sqrt-consuming code paths are
either dead or cancelled in every statement that instantiates it). -/

/-- Identity stand-in for the sqrt parameter in closed statements. -/
def sqId : ℚ → ℚ := fun q => q

/-- The pass-through configuration: saturation 100, lightness 100,
opacity 0 (hue 0, Multiply, feather 0). -/
def cfgPass : AuroraConfig :=
  { s := 100, l := 100, h := 0, o := 0, e := true,
    b := some 0, f := some 0, fi := some false }

/-- The same configuration with feather moved to 50. -/
def cfgFeather50 : AuroraConfig := { cfgPass with f := some 50 }

/-- The same configuration disabled. -/
def cfgDisabled : AuroraConfig := { cfgPass with e := false }

/-- A 2x2 geometry descriptor. -/
def geomTwo : ShaderGeometry :=
  { coordOffset := (0, 0), itemSize := (2, 2), shapeType := 0 }

/-- Uniforms with feather 0 and invertFeather set (rect shape, 2x2). -/
def uZeroFeatherInv : ShaderUniforms :=
  { saturation := 1, lightness := 1, hue := 0, opacity := 0, blendMode := 0,
    coordOffset := (0, 0), feather := 0, invertFeather := 1,
    itemSize := (2, 2), shapeType := 0 }

/-- A metadata value with valid s, l, h, o, e but a string in b. -/
def badBlendVal : JsonVal :=
  .jobj [("s", .jnum 100), ("l", .jnum 100), ("h", .jnum 0),
         ("o", .jnum 0), ("e", .jbool true), ("b", .jstr "multiply")]

/-- A well-formed metadata value. -/
def goodConfigVal : JsonVal :=
  .jobj [("s", .jnum 25), ("l", .jnum 30), ("h", .jnum (-99)),
         ("o", .jnum 9), ("e", .jbool true)]

/-- A MAP-layer image item. -/
def itemMapImage : Item :=
  { id := 1, layer := "MAP", px := 10, py := 20, rotation := 0,
    sx := 1, sy := 1, visible := true, type := "IMAGE",
    strokeWidth := none, width := 300, height := 200, config := some cfgPass }

/-- A MAP-layer shape item. -/
def itemMapShape : Item :=
  { id := 2, layer := "MAP", px := 5, py := 6, rotation := 0,
    sx := 1, sy := 1, visible := true, type := "SHAPE",
    strokeWidth := some 4, width := 100, height := 80, config := none }

/-- A bounds-query result for the shape item. -/
def boundsShape : Bounds := { minX := 1, minY := 2, maxX := 107, maxY := 88 }

/-- A MAP-layer item, id 7, carrying a disabled configuration. -/
def itemSeven : Item :=
  { id := 7, layer := "MAP", px := 0, py := 0, rotation := 0,
    sx := 1, sy := 1, visible := true, type := "IMAGE",
    strokeWidth := none, width := 50, height := 50, config := some cfgDisabled }

/-- An Aurora-tagged local effect whose source tag is 7. -/
def effSeven : LocalEffect :=
  { id := 1, tagged := true, source := some 7, px := 0, py := 0,
    rotation := 0, sx := 1, sy := 1, visible := true,
    cfg := some cfgDisabled, offset := (0, 0) }

/-- State in which the attachment for item 7 exists while the cache
already records the disabled fingerprint (the state a failed deleteItems
leaves behind). -/
def stDisabledCached : ReconcileState :=
  { effects := [effSeven],
    cache := [(7, effectSnapshot cfgDisabled itemSeven)], nextId := 2 }

/-- An Aurora-tagged effect, id 1, source tag 5. -/
def effDupA : LocalEffect :=
  { id := 1, tagged := true, source := some 5, px := 0, py := 0,
    rotation := 0, sx := 1, sy := 1, visible := true,
    cfg := none, offset := (0, 0) }

/-- A second Aurora-tagged effect, id 2, with the same source tag 5. -/
def effDupB : LocalEffect := { effDupA with id := 2 }

/-- A state holding two attachments that reference the same source id. -/
def stDupSources : ReconcileState :=
  { effects := [effDupA, effDupB], cache := [], nextId := 3 }

/-- A state with one tracked attachment for source 5 and its cache entry
(its source item is about to disappear from the scene). -/
def stOneTracked : ReconcileState :=
  { effects := [effDupA],
    cache := [(5, effectSnapshot cfgPass itemMapImage)], nextId := 2 }

/-- A bounds oracle under which every query fails. -/
def noBounds : Nat → Option Bounds := fun _ => none

/-- Pass input whose batched deleteItems call fails. -/
def inpDeleteFails : PassInput :=
  { items := [], bounds := noBounds,
    failFind := false, failDelete := true, failAdd := false }

/-- An untagged local item (not an Aurora effect). -/
def effUntagged : LocalEffect := { effDupA with tagged := false, id := 9 }

/-- A state holding one tracked attachment and one unrelated local item. -/
def stMixed : ReconcileState :=
  { effects := [effDupA, effUntagged], cache := [], nextId := 10 }

/-- Pass input with no failures and no items. -/
def inpEmptyOk : PassInput :=
  { items := [], bounds := noBounds,
    failFind := false, failDelete := false, failAdd := false }

/-- The invariant the reconciler maintains on its own module state: every
local effect it owns is tagged, carries ids below the id supply, ids are
pairwise distinct, and no source id is referenced by two attachments. -/
def InvState (s : ReconcileState) : Prop :=
  (∀ e ∈ s.effects, e.tagged = true) ∧
  (∀ e ∈ s.effects, e.id < s.nextId) ∧
  (s.effects.map LocalEffect.id).Nodup ∧
  (∀ x, attachCount s.effects x ≤ 1)

/-! ## C1 — shader pass-through -/

/-- C1: the claim says that with saturation=100, lightness=100, opacity=0
the shader main returns the input pixel colour with its alpha unchanged.
It does not: the two debug-visualisation lines in main are live (the
comment above them says "Uncomment to visualise", but they are not
commented out), so main returns the coordinate gradient
half4(coord/itemSize, 0, 1) for every input, and the documented final
return is unreachable.  This holds for every sqrt interpretation, every
coordinate and every input colour. -/
theorem shaderMain_returns_debug_gradient (sq : ℚ → ℚ) (cfg : AuroraConfig)
    (geom : ShaderGeometry) (coord : ℚ × ℚ) (color : ℚ × ℚ × ℚ × ℚ)
    (hs : cfg.s = 100) (hl : cfg.l = 100) (ho : cfg.o = 0) :
    shaderMain sq (getShaderUniforms cfg geom) coord color
      = (coord.1 / geom.itemSize.1, coord.2 / geom.itemSize.2, 0, 1) := by
  simp [shaderMain, getShaderUniforms]

/-- C1 witness: at the pass-through parameters, coordinate (1,1) on a 2x2
item with input colour (1/4, 1/3, 2/3) and alpha 4/5, main returns
(1/2, 1/2, 0, 1) — not the input pixel, and the alpha is forced to 1. -/
theorem shaderMain_returns_debug_gradient_witness :
    cfgPass.s = 100 ∧ cfgPass.l = 100 ∧ cfgPass.o = 0 ∧
    shaderMain sqId (getShaderUniforms cfgPass geomTwo) (1, 1) (1/4, 1/3, 2/3, 4/5)
      = (1/2, 1/2, 0, 1) ∧
    ((1/2, 1/2, 0, 1) : ℚ × ℚ × ℚ × ℚ) ≠ (1/4, 1/3, 2/3, 4/5) := by
  refine ⟨rfl, rfl, rfl, ?_, by norm_num [Prod.ext_iff]⟩
  have h := shaderMain_returns_debug_gradient sqId cfgPass geomTwo (1, 1)
    (1/4, 1/3, 2/3, 4/5) rfl rfl rfl
  simpa [geomTwo] using h

/-! ## C7 — feather factor -/

/-- C7 counterexample: with feather = 0 and invertFeather set, the claim
expects the factor to be 0 everywhere; computeFeather instead returns 1
(the early return for feather <= 0 fires before the inversion). -/
theorem computeFeather_zero_invert_is_one :
    computeFeather sqId uZeroFeatherInv (1, 1) = 1 ∧
    computeFeather sqId uZeroFeatherInv (1, 1) ≠ 0 := by
  exact ⟨rfl, by decide⟩

/-- C7 amended: when feather = 0 the feather factor is 1 everywhere
regardless of invertFeather; when feather > 0 and invertFeather is set,
the factor is 1 - f where f is the factor the same geometry yields with
invertFeather clear. -/
theorem computeFeather_invert_spec (sq : ℚ → ℚ) (u : ShaderUniforms) (coord : ℚ × ℚ) :
    (u.feather ≤ 0 → computeFeather sq u coord = 1) ∧
    (0 < u.feather → u.invertFeather = 1 →
      computeFeather sq u coord
        = 1 - computeFeather sq { u with invertFeather := 0 } coord) := by
  constructor
  · intro h
    simp [computeFeather, h]
  · intro h hinv
    have h' : ¬ u.feather ≤ 0 := not_le.mpr h
    simp only [computeFeather]
    rw [if_neg h', if_neg (show ¬ ({ u with invertFeather := 0 } : ShaderUniforms).feather ≤ 0 from h')]
    simp only [hinv, mixQ]
    ring

/-- C7 witness: the amended statement evaluated at feather 0 (any invert)
and at feather 1/2 with invert set, on a 2x2 rectangle at (1/2, 1). -/
theorem computeFeather_invert_spec_witness :
    computeFeather sqId uZeroFeatherInv (1, 1) = 1 ∧
    computeFeather sqId { uZeroFeatherInv with feather := 1/2 } (1/2, 1)
      = 1 - computeFeather sqId { uZeroFeatherInv with feather := 1/2, invertFeather := 0 } (1/2, 1) := by
  constructor
  · exact (computeFeather_invert_spec sqId uZeroFeatherInv (1, 1)).1 (by norm_num [uZeroFeatherInv])
  · exact (computeFeather_invert_spec sqId { uZeroFeatherInv with feather := 1/2 } (1/2, 1)).2
      (by norm_num [uZeroFeatherInv]) rfl

/-! ## C2 — snapshot fingerprint coverage -/

/-- C2 counterexample: two configurations differing only in the feather
field produce the same fingerprint but different shader uniforms —
effectSnapshot omits f and fi. -/
theorem effectSnapshot_misses_feather :
    effectSnapshot cfgPass itemMapImage = effectSnapshot cfgFeather50 itemMapImage ∧
    getShaderUniforms cfgPass DEFAULT_GEOMETRY ≠ getShaderUniforms cfgFeather50 DEFAULT_GEOMETRY := by
  refine ⟨rfl, fun hEq => ?_⟩
  have hfe := congrArg ShaderUniforms.feather hEq
  norm_num [getShaderUniforms, cfgPass, cfgFeather50] at hfe

/-- C2 amended: the fingerprint covers every uniform-feeding attribute
except feather and featherInvert: whenever two config/item pairs have
equal fingerprints AND agree on the f and fi fields, they produce equal
shader uniforms (for any shared geometry descriptor) and mirror equal
attachment transforms. -/
theorem effectSnapshot_determines_rest (c1 c2 : AuroraConfig) (i1 i2 : Item)
    (g : ShaderGeometry)
    (hsnap : effectSnapshot c1 i1 = effectSnapshot c2 i2)
    (hf : c1.f = c2.f) (hfi : c1.fi = c2.fi) :
    getShaderUniforms c1 g = getShaderUniforms c2 g ∧
    i1.px = i2.px ∧ i1.py = i2.py ∧ i1.rotation = i2.rotation ∧
    i1.sx = i2.sx ∧ i1.sy = i2.sy ∧ i1.visible = i2.visible := by
  simp only [effectSnapshot, Snapshot.mk.injEq] at hsnap
  obtain ⟨hs, hl, hh, ho, he, hb, hpx, hpy, hrot, hsx, hsy, hvis, hty, hst, hw, hht⟩ := hsnap
  refine ⟨?_, hpx, hpy, hrot, hsx, hsy, hvis⟩
  simp [getShaderUniforms, hs, hl, hh, ho, hb, hf, hfi]

/-- C2 witness for the amended statement at a concrete pair. -/
theorem effectSnapshot_determines_rest_witness :
    getShaderUniforms cfgPass DEFAULT_GEOMETRY = getShaderUniforms cfgPass DEFAULT_GEOMETRY ∧
    itemMapImage.px = itemMapImage.px ∧ itemMapImage.py = itemMapImage.py ∧
    itemMapImage.rotation = itemMapImage.rotation ∧
    itemMapImage.sx = itemMapImage.sx ∧ itemMapImage.sy = itemMapImage.sy ∧
    itemMapImage.visible = itemMapImage.visible :=
  effectSnapshot_determines_rest cfgPass cfgPass itemMapImage itemMapImage
    DEFAULT_GEOMETRY rfl rfl rfl

/-! ## C8 — the isAuroraConfig type guard -/

/-- C8 counterexample: a metadata value whose b field is present with a
wrong type (a string) is still accepted — the guard never examines b,
f or fi. -/
theorem isAuroraConfig_accepts_wrong_typed_blend :
    isAuroraConfig badBlendVal = true ∧
    (getField badBlendVal "b").isSome = true ∧
    isNumV (getField badBlendVal "b") = false := by
  exact ⟨rfl, rfl, rfl⟩

/-- C8 amended: isAuroraConfig accepts a metadata value exactly when its
s, l, h, o properties are numbers and its e property is a boolean; wrong
types in any of those five fields (or a non-object value, arrays
included) are rejected and the object is treated as unconfigured.  The
b, f and fi fields are not validated. -/
theorem isAuroraConfig_iff_core_fields (v : JsonVal) :
    isAuroraConfig v = true ↔
      (isNumV (getField v "s") = true ∧ isNumV (getField v "l") = true ∧
       isNumV (getField v "h") = true ∧ isNumV (getField v "o") = true ∧
       isBoolV (getField v "e") = true) := by
  cases v <;> simp [isAuroraConfig, getField, isNumV, isBoolV, Bool.and_eq_true, and_assoc]

/-- C8 witness: the characterisation applied to a concrete well-formed
value. -/
theorem isAuroraConfig_iff_core_fields_witness :
    isAuroraConfig goodConfigVal = true :=
  (isAuroraConfig_iff_core_fields goodConfigVal).mpr ⟨rfl, rfl, rfl, rfl, rfl⟩

/-! ## C9 — coordinate offset resolver -/

/-- C9: for shapes with a successful bounds query the offset is
-(position - bounds minimum + 49) per axis; for shapes with a failing
query it is zero; for non-shapes it is zero and ignores the query
outcome entirely. -/
theorem getCoordOffset_spec (item : Item) (b : Bounds) :
    (isShapeI item = true →
      getCoordOffset item (some b)
        = (-(item.px - b.minX + SHAPE_ATTACHMENT_PADDING),
           -(item.py - b.minY + SHAPE_ATTACHMENT_PADDING))) ∧
    (isShapeI item = true → getCoordOffset item none = (0, 0)) ∧
    (isShapeI item = false → ∀ bq : Option Bounds, getCoordOffset item bq = (0, 0)) := by
  refine ⟨fun h => ?_, fun h => ?_, fun h bq => ?_⟩ <;> simp [getCoordOffset, h]

/-- C9 witness: evaluated on a concrete shape with bounds min (1,2). -/
theorem getCoordOffset_spec_witness :
    getCoordOffset itemMapShape (some boundsShape)
      = (-(itemMapShape.px - boundsShape.minX + SHAPE_ATTACHMENT_PADDING),
         -(itemMapShape.py - boundsShape.minY + SHAPE_ATTACHMENT_PADDING)) ∧
    getCoordOffset itemMapShape none = (0, 0) :=
  ⟨(getCoordOffset_spec itemMapShape boundsShape).1 rfl,
   (getCoordOffset_spec itemMapShape boundsShape).2.1 rfl⟩

/-! ## C3 — failure semantics of a reconcile pass (counterexample) -/

/-- C3 counterexample: a pass whose batched deleteItems call fails is
caught, but the snapshot cache is NOT left in its pre-pass state: the
removal loop already dropped the entry for the vanished source before
the batched call ran. -/
theorem reconcile_failure_mutates_cache :
    (reconcileAttempt stOneTracked inpDeleteFails).1 = .error () ∧
    (reconcileEffects stOneTracked inpDeleteFails).cache ≠ stOneTracked.cache ∧
    (reconcileEffects stOneTracked inpDeleteFails).cache = [] := by
  exact ⟨rfl, by decide, rfl⟩

/-! ## C5 — disabled-implies-absent (counterexample) -/

/-- C5 counterexample: item 7 is configured and disabled, an attachment
for it exists, and the cache already records the disabled fingerprint;
the pass takes the fingerprint-equality skip path and the attachment
survives the completed pass. -/
theorem disabled_attachment_persists :
    cfgDisabled.e = false ∧
    attachCount (reconcileOk stDisabledCached [itemSeven] noBounds).effects 7 = 1 := by
  exact ⟨rfl, by decide⟩

/-! ## C6 — idempotence (counterexample) -/

/-- C6 counterexample: from a scene state holding two attachments with
the same source tag (id 5) and no source items, the first completed pass
deletes only the one the Map kept (id 2); the second pass with the same
(empty) source-object set schedules another deletion (id 1), so the
second pass issues a nonempty deleteItems call. -/
theorem reconcile_second_pass_deletes :
    passIdsToRemove (reconcileOk stDupSources [] noBounds) [] noBounds = [1] ∧
    passIdsToRemove (reconcileOk stDupSources [] noBounds) [] noBounds ≠ [] := by
  exact ⟨by decide, by decide⟩

/-! ## Association-list map lemmas -/

theorem mget_mset_self {α : Type} (m : List (Nat × α)) (k : Nat) (v : α) :
    mget (mset m k v) k = some v := by
  induction m with
  | nil => simp [mset, mget]
  | cons p rest ih =>
      by_cases h : p.1 = k
      · simp [mset, h, mget]
      · simp [mset, h, mget, ih]

theorem mget_mset_ne {α : Type} (m : List (Nat × α)) (k k' : Nat) (v : α)
    (h : k' ≠ k) : mget (mset m k v) k' = mget m k' := by
  have hne : ¬ k = k' := Ne.symm h
  induction m with
  | nil => simp [mset, mget, hne]
  | cons p rest ih =>
      by_cases hp : p.1 = k
      · simp [mset, mget, hp, hne]
      · simp [mset, hp, mget, ih]

theorem mget_mdel_self {α : Type} (m : List (Nat × α)) (k : Nat) :
    mget (mdel m k) k = none := by
  induction m with
  | nil => simp [mdel, mget]
  | cons p rest ih =>
      by_cases h : p.1 = k
      · simp [mdel, h, ih]
      · simp [mdel, h, mget, ih]

theorem mget_mdel_ne {α : Type} (m : List (Nat × α)) (k k' : Nat) (h : k' ≠ k) :
    mget (mdel m k) k' = mget m k' := by
  induction m with
  | nil => simp [mdel]
  | cons p rest ih =>
      by_cases hp : p.1 = k
      · rw [show mdel (p :: rest) k = mdel rest k by simp [mdel, hp], ih]
        have : ¬ p.1 = k' := by rw [hp]; exact Ne.symm h
        simp [mget, this]
      · simp [mdel, hp, mget, ih]

theorem mset_same {α : Type} (m : List (Nat × α)) (k : Nat) (v : α)
    (h : mget m k = some v) : mset m k v = m := by
  induction m with
  | nil => simp [mget] at h
  | cons p rest ih =>
      cases p with
      | mk a b =>
          by_cases hp : a = k
          · subst hp
            simp [mget] at h
            subst h
            simp [mset]
          · simp [mget, hp] at h
            simp [mset, hp, ih h]

theorem mem_mset {α : Type} (m : List (Nat × α)) (k : Nat) (v : α) (p : Nat × α)
    (h : p ∈ mset m k v) : p ∈ m ∨ p = (k, v) := by
  induction m with
  | nil => simp [mset] at h; simp [h]
  | cons q rest ih =>
      by_cases hq : q.1 = k
      · simp [mset, hq] at h
        rcases h with h | h
        · right; simp [h]
        · left; simp [h]
      · simp [mset, hq] at h
        rcases h with h | h
        · left; simp [h]
        · rcases ih h with h' | h'
          · left; simp [h']
          · right; exact h'

theorem mhas_iff_mem_keys {α : Type} (m : List (Nat × α)) (k : Nat) :
    mhas m k = true ↔ k ∈ m.map Prod.fst := by
  induction m with
  | nil => simp [mhas, mget]
  | cons p rest ih =>
      by_cases hp : p.1 = k
      · simp [mhas, mget, hp]
      · simp [mhas, mget, hp, Ne.symm hp] at ih ⊢
        exact ih

theorem mget_isSome_of_mhas {α : Type} (m : List (Nat × α)) (k : Nat)
    (h : mhas m k = true) : ∃ v, mget m k = some v := by
  unfold mhas at h
  cases hm : mget m k with
  | none => rw [hm] at h; simp at h
  | some v => exact ⟨v, rfl⟩

theorem mkeys_mset {α : Type} (m : List (Nat × α)) (k : Nat) (v : α) :
    (mset m k v).map Prod.fst
      = if mhas m k = true then m.map Prod.fst else m.map Prod.fst ++ [k] := by
  induction m with
  | nil => simp [mset, mhas, mget]
  | cons p rest ih =>
      by_cases hp : p.1 = k
      · simp [mset, hp, mhas, mget]
      · simp only [mset, hp, if_false, List.map_cons, ih, mhas, mget]
        by_cases hr : (mget rest k).isSome = true
        · simp [mhas] at ih ⊢
          simp [hp, hr, ih]
        · simp [mhas] at ih ⊢
          simp [hp, hr, ih]

theorem nodup_mset {α : Type} (m : List (Nat × α)) (k : Nat) (v : α)
    (h : (m.map Prod.fst).Nodup) : ((mset m k v).map Prod.fst).Nodup := by
  rw [mkeys_mset]
  by_cases hh : mhas m k = true
  · simp [hh, h]
  · simp only [hh, if_false]
    have hk : k ∉ m.map Prod.fst := fun hmem => hh ((mhas_iff_mem_keys m k).mpr hmem)
    simp [List.nodup_append, h, hk]

theorem mem_of_mget {α : Type} (m : List (Nat × α)) (k : Nat) (v : α)
    (h : mget m k = some v) : (k, v) ∈ m := by
  induction m with
  | nil => simp [mget] at h
  | cons p rest ih =>
      cases p with
      | mk a b =>
          by_cases hp : a = k
          · subst hp
            simp [mget] at h
            subst h
            exact List.mem_cons_self _ _
          · simp [mget, hp] at h
            exact List.mem_cons_of_mem _ (ih h)

theorem mget_of_mem_nodup {α : Type} (m : List (Nat × α)) (k : Nat) (v : α)
    (hnd : (m.map Prod.fst).Nodup) (h : (k, v) ∈ m) : mget m k = some v := by
  induction m with
  | nil => simp at h
  | cons p rest ih =>
      simp only [List.map_cons, List.nodup_cons] at hnd
      rcases List.mem_cons.mp h with h' | h'
      · rw [← h']
        simp [mget]
      · have hk : p.1 ≠ k := by
          intro hEq
          exact hnd.1 (hEq ▸ (List.mem_map.mpr ⟨(k, v), h', rfl⟩))
        simp [mget, hk]
        exact ih hnd.2 h'

/-! ## General list helpers -/

theorem nodup_map_inj {α β : Type} (f : α → β) (l : List α)
    (h : (l.map f).Nodup) :
    ∀ a ∈ l, ∀ b ∈ l, f a = f b → a = b := by
  induction l with
  | nil => intro a ha; simp at ha
  | cons x rest ih =>
      simp only [List.map_cons, List.nodup_cons] at h
      intro a ha b hb hfab
      rcases List.mem_cons.mp ha with ha' | ha' <;>
        rcases List.mem_cons.mp hb with hb' | hb'
      · rw [ha', hb']
      · exfalso
        apply h.1
        have hx : f x = f b := by rw [← ha']; exact hfab
        rw [hx]
        exact List.mem_map.mpr ⟨b, hb', rfl⟩
      · exfalso
        apply h.1
        have hx : f x = f a := by rw [← hb']; exact hfab.symm
        rw [hx]
        exact List.mem_map.mpr ⟨a, ha', rfl⟩
      · exact ih h.2 a ha' b hb' hfab

theorem countP_le_one_unique {α : Type} (p : α → Bool) (l : List α)
    (h : l.countP p ≤ 1) :
    ∀ a ∈ l, ∀ b ∈ l, p a = true → p b = true → a = b := by
  induction l with
  | nil => intro a ha; simp at ha
  | cons x rest ih =>
      intro a ha b hb hpa hpb
      rw [List.countP_cons] at h
      rcases List.mem_cons.mp ha with ha' | ha' <;>
        rcases List.mem_cons.mp hb with hb' | hb'
      · rw [ha', hb']
      · exfalso
        have hpx : p x = true := by rw [← ha']; exact hpa
        have hpos : 0 < rest.countP p := List.countP_pos.mpr ⟨b, hb', hpb⟩
        have h' : rest.countP p + 1 ≤ 1 := by simpa [hpx] using h
        omega
      · exfalso
        have hpx : p x = true := by rw [← hb']; exact hpb
        have hpos : 0 < rest.countP p := List.countP_pos.mpr ⟨a, ha', hpa⟩
        have h' : rest.countP p + 1 ≤ 1 := by simpa [hpx] using h
        omega
      · have hle : rest.countP p ≤ 1 := by omega
        exact ih hle a ha' b hb' hpa hpb

/-! ## effectsBySource / auroraItems map lemmas -/

theorem mhas_mset_self {α : Type} (m : List (Nat × α)) (k : Nat) (v : α) :
    mhas (mset m k v) k = true := by
  simp [mhas, mget_mset_self]

theorem mhas_mset_of {α : Type} (m : List (Nat × α)) (k k' : Nat) (v : α)
    (h : mhas m k = true) : mhas (mset m k' v) k = true := by
  by_cases hk : k = k'
  · subst hk
    exact mhas_mset_self m k v
  · simpa [mhas, mget_mset_ne m k' k v hk] using h

theorem ebsFold_mem (l : List LocalEffect) :
    ∀ acc p, p ∈ ebsFold acc l → p ∈ acc ∨ (p.2 ∈ l ∧ p.2.source = some p.1) := by
  induction l with
  | nil =>
      intro acc p hp
      exact Or.inl hp
  | cons e rest ih =>
      intro acc p hp
      cases hsrc : e.source with
      | none =>
          rw [show ebsFold acc (e :: rest) = ebsFold acc rest by simp [ebsFold, hsrc]] at hp
          rcases ih acc p hp with h | h
          · exact Or.inl h
          · exact Or.inr ⟨List.mem_cons_of_mem _ h.1, h.2⟩
      | some sid =>
          rw [show ebsFold acc (e :: rest) = ebsFold (mset acc sid e) rest by
            simp [ebsFold, hsrc]] at hp
          rcases ih (mset acc sid e) p hp with h | h
          · rcases mem_mset acc sid e p h with h' | h'
            · exact Or.inl h'
            · subst h'
              exact Or.inr ⟨List.mem_cons_self _ _, hsrc⟩
          · exact Or.inr ⟨List.mem_cons_of_mem _ h.1, h.2⟩

theorem ebsFold_keys_nodup (l : List LocalEffect) :
    ∀ acc, (acc.map Prod.fst).Nodup → ((ebsFold acc l).map Prod.fst).Nodup := by
  induction l with
  | nil => intro acc h; exact h
  | cons e rest ih =>
      intro acc h
      cases hsrc : e.source with
      | none => rw [show ebsFold acc (e :: rest) = ebsFold acc rest by simp [ebsFold, hsrc]]
                exact ih acc h
      | some sid =>
          rw [show ebsFold acc (e :: rest) = ebsFold (mset acc sid e) rest by
            simp [ebsFold, hsrc]]
          exact ih _ (nodup_mset acc sid e h)

theorem ebsFold_mhas (l : List LocalEffect) :
    ∀ acc k, mhas acc k = true → mhas (ebsFold acc l) k = true := by
  induction l with
  | nil => intro acc k h; exact h
  | cons e rest ih =>
      intro acc k h
      cases hsrc : e.source with
      | none => rw [show ebsFold acc (e :: rest) = ebsFold acc rest by simp [ebsFold, hsrc]]
                exact ih acc k h
      | some sid =>
          rw [show ebsFold acc (e :: rest) = ebsFold (mset acc sid e) rest by
            simp [ebsFold, hsrc]]
          exact ih _ k (mhas_mset_of acc k sid e h)

theorem ebsFold_mhas_of_mem (l : List LocalEffect) :
    ∀ acc (e : LocalEffect) (k : Nat), e ∈ l → e.source = some k →
      mhas (ebsFold acc l) k = true := by
  induction l with
  | nil => intro acc e k h; simp at h
  | cons e0 rest ih =>
      intro acc e k hmem hsrc
      rcases List.mem_cons.mp hmem with h | h
      · subst h
        rw [show ebsFold acc (e :: rest) = ebsFold (mset acc k e) rest by
          simp [ebsFold, hsrc]]
        exact ebsFold_mhas rest _ k (mhas_mset_self acc k e)
      · cases hsrc0 : e0.source with
        | none => rw [show ebsFold acc (e0 :: rest) = ebsFold acc rest by simp [ebsFold, hsrc0]]
                  exact ih acc e k h hsrc
        | some sid =>
            rw [show ebsFold acc (e0 :: rest) = ebsFold (mset acc sid e0) rest by
              simp [ebsFold, hsrc0]]
            exact ih _ e k h hsrc

/-- The effectsBySource Map built by a pass: a hit means a tagged effect
in the scene with that source tag. -/
theorem ebs_mget_spec (effects : List LocalEffect) (k : Nat) (v : LocalEffect)
    (h : mget (effectsBySourceOf effects) k = some v) :
    v ∈ effects ∧ v.tagged = true ∧ v.source = some k := by
  have hmem := mem_of_mget _ _ _ h
  rcases ebsFold_mem (findAllEffects effects) [] (k, v) hmem with h' | h'
  · simp at h'
  · have hv := h'.1
    unfold findAllEffects at hv
    rw [List.mem_filter] at hv
    exact ⟨hv.1, by simpa using hv.2, h'.2⟩

theorem ebs_keys_nodup (effects : List LocalEffect) :
    ((effectsBySourceOf effects).map Prod.fst).Nodup :=
  ebsFold_keys_nodup _ [] (by simp)

theorem ebs_mhas_of_mem (effects : List LocalEffect) (e : LocalEffect) (k : Nat)
    (hmem : e ∈ effects) (htag : e.tagged = true) (hsrc : e.source = some k) :
    mhas (effectsBySourceOf effects) k = true := by
  apply ebsFold_mhas_of_mem (findAllEffects effects) [] e k _ hsrc
  unfold findAllEffects
  rw [List.mem_filter]
  exact ⟨hmem, by simpa using htag⟩

theorem aiFold_mem (items : List Item) :
    ∀ acc p, p ∈ aiFold acc items →
      p ∈ acc ∨ (p.2.1 ∈ items ∧ p.2.1.layer = "MAP" ∧ p.2.1.config = some p.2.2 ∧ p.2.1.id = p.1) := by
  induction items with
  | nil => intro acc p hp; exact Or.inl hp
  | cons item rest ih =>
      intro acc p hp
      by_cases hl : item.layer = "MAP"
      · cases hcfg : item.config with
        | none =>
            rw [show aiFold acc (item :: rest) = aiFold acc rest by
              simp [aiFold, hl, hcfg]] at hp
            rcases ih acc p hp with h | h
            · exact Or.inl h
            · exact Or.inr ⟨List.mem_cons_of_mem _ h.1, h.2.1, h.2.2⟩
        | some c =>
            rw [show aiFold acc (item :: rest) = aiFold (mset acc item.id (item, c)) rest by
              simp [aiFold, hl, hcfg]] at hp
            rcases ih _ p hp with h | h
            · rcases mem_mset acc item.id (item, c) p h with h' | h'
              · exact Or.inl h'
              · subst h'
                exact Or.inr ⟨List.mem_cons_self _ _, hl, hcfg, rfl⟩
            · exact Or.inr ⟨List.mem_cons_of_mem _ h.1, h.2.1, h.2.2⟩
      · rw [show aiFold acc (item :: rest) = aiFold acc rest by simp [aiFold, hl]] at hp
        rcases ih acc p hp with h | h
        · exact Or.inl h
        · exact Or.inr ⟨List.mem_cons_of_mem _ h.1, h.2.1, h.2.2⟩

theorem aiFold_keys_nodup (items : List Item) :
    ∀ acc, (acc.map Prod.fst).Nodup → ((aiFold acc items).map Prod.fst).Nodup := by
  induction items with
  | nil => intro acc h; exact h
  | cons item rest ih =>
      intro acc h
      by_cases hl : item.layer = "MAP"
      · cases hcfg : item.config with
        | none => rw [show aiFold acc (item :: rest) = aiFold acc rest by simp [aiFold, hl, hcfg]]
                  exact ih acc h
        | some c =>
            rw [show aiFold acc (item :: rest) = aiFold (mset acc item.id (item, c)) rest by
              simp [aiFold, hl, hcfg]]
            exact ih _ (nodup_mset acc item.id (item, c) h)
      · rw [show aiFold acc (item :: rest) = aiFold acc rest by simp [aiFold, hl]]
        exact ih acc h

theorem ai_keys_nodup (items : List Item) :
    ((auroraItemsOf items).map Prod.fst).Nodup :=
  aiFold_keys_nodup _ [] (by simp)

/-- A hit in the auroraItems Map names a MAP-layer configured item with
the hit key as its id. -/
theorem ai_mget_spec (items : List Item) (k : Nat) (it : Item) (c : AuroraConfig)
    (h : mget (auroraItemsOf items) k = some (it, c)) :
    it ∈ items ∧ it.layer = "MAP" ∧ it.config = some c ∧ it.id = k := by
  have hmem := mem_of_mget _ _ _ h
  rcases aiFold_mem items [] (k, (it, c)) hmem with h' | h'
  · simp at h'
  · exact h'

/-- Every auroraItems entry is keyed by its item's id. -/
theorem ai_entry_id (items : List Item) (k : Nat) (it : Item) (c : AuroraConfig)
    (h : (k, (it, c)) ∈ auroraItemsOf items) : it.id = k := by
  rcases aiFold_mem items [] (k, (it, c)) h with h' | h'
  · simp at h'
  · exact h'.2.2.2

/-! ## removalLoop lemmas -/

theorem removalLoop_cons_skip (ai : List (Nat × (Item × AuroraConfig)))
    (sid : Nat) (eff : LocalEffect) (rest : List (Nat × LocalEffect))
    (ids : List Nat) (cache : List (Nat × Snapshot)) (h : mhas ai sid = true) :
    removalLoop ai ((sid, eff) :: rest) ids cache = removalLoop ai rest ids cache := by
  simp [removalLoop, h]

theorem removalLoop_cons_push (ai : List (Nat × (Item × AuroraConfig)))
    (sid : Nat) (eff : LocalEffect) (rest : List (Nat × LocalEffect))
    (ids : List Nat) (cache : List (Nat × Snapshot)) (h : mhas ai sid = false) :
    removalLoop ai ((sid, eff) :: rest) ids cache
      = removalLoop ai rest (ids ++ [eff.id]) (mdel cache sid) := by
  simp [removalLoop, h]

theorem removalLoop_ids_mono (ai : List (Nat × (Item × AuroraConfig)))
    (l : List (Nat × LocalEffect)) :
    ∀ ids cache id, id ∈ ids → id ∈ (removalLoop ai l ids cache).1 := by
  induction l with
  | nil => intro ids cache id h; simpa [removalLoop] using h
  | cons p rest ih =>
      intro ids cache id h
      obtain ⟨sid, eff⟩ := p
      by_cases hha : mhas ai sid = true
      · rw [removalLoop_cons_skip ai sid eff rest ids cache hha]
        exact ih ids cache id h
      · rw [removalLoop_cons_push ai sid eff rest ids cache (by simpa using hha)]
        exact ih _ _ id (List.mem_append_left _ h)

theorem removalLoop_ids_spec (ai : List (Nat × (Item × AuroraConfig)))
    (l : List (Nat × LocalEffect)) :
    ∀ ids cache id, id ∈ (removalLoop ai l ids cache).1 →
      id ∈ ids ∨ ∃ sid eff, (sid, eff) ∈ l ∧ eff.id = id ∧ mhas ai sid = false := by
  induction l with
  | nil => intro ids cache id h; exact Or.inl (by simpa [removalLoop] using h)
  | cons p rest ih =>
      intro ids cache id h
      obtain ⟨sid, eff⟩ := p
      by_cases hha : mhas ai sid = true
      · rw [removalLoop_cons_skip ai sid eff rest ids cache hha] at h
        rcases ih ids cache id h with h' | ⟨sid', eff', hmem, heq, hha'⟩
        · exact Or.inl h'
        · exact Or.inr ⟨sid', eff', List.mem_cons_of_mem _ hmem, heq, hha'⟩
      · have hha' : mhas ai sid = false := by simpa using hha
        rw [removalLoop_cons_push ai sid eff rest ids cache hha'] at h
        rcases ih _ _ id h with h' | ⟨sid', eff', hmem, heq, hh⟩
        · rcases List.mem_append.mp h' with h'' | h''
          · exact Or.inl h''
          · simp at h''
            exact Or.inr ⟨sid, eff, List.mem_cons_self _ _, h''.symm, hha'⟩
        · exact Or.inr ⟨sid', eff', List.mem_cons_of_mem _ hmem, heq, hh⟩

theorem removalLoop_pushes (ai : List (Nat × (Item × AuroraConfig)))
    (l : List (Nat × LocalEffect)) :
    ∀ ids cache sid eff, (sid, eff) ∈ l → mhas ai sid = false →
      eff.id ∈ (removalLoop ai l ids cache).1 := by
  induction l with
  | nil => intro ids cache sid eff h; simp at h
  | cons p rest ih =>
      intro ids cache sid eff hmem hha
      rcases List.mem_cons.mp hmem with h | h
      · rw [← h]
        rw [removalLoop_cons_push ai sid eff rest ids cache hha]
        exact removalLoop_ids_mono ai rest _ _ eff.id (List.mem_append_right _ (by simp))
      · obtain ⟨sid0, eff0⟩ := p
        by_cases hh0 : mhas ai sid0 = true
        · rw [removalLoop_cons_skip ai sid0 eff0 rest ids cache hh0]
          exact ih ids cache sid eff h hha
        · rw [removalLoop_cons_push ai sid0 eff0 rest ids cache (by simpa using hh0)]
          exact ih _ _ sid eff h hha

theorem removalLoop_cache_mget (ai : List (Nat × (Item × AuroraConfig)))
    (l : List (Nat × LocalEffect)) :
    ∀ ids cache k, mhas ai k = true →
      mget (removalLoop ai l ids cache).2 k = mget cache k := by
  induction l with
  | nil => intro ids cache k h; simp [removalLoop]
  | cons p rest ih =>
      intro ids cache k h
      obtain ⟨sid, eff⟩ := p
      by_cases hh0 : mhas ai sid = true
      · rw [removalLoop_cons_skip ai sid eff rest ids cache hh0]
        exact ih ids cache k h
      · rw [removalLoop_cons_push ai sid eff rest ids cache (by simpa using hh0)]
        rw [ih _ _ k h]
        have hne : k ≠ sid := by
          intro hEq
          rw [hEq] at h
          simp [h] at hh0
        exact mget_mdel_ne cache sid k hne

theorem removalLoop_noop (ai : List (Nat × (Item × AuroraConfig)))
    (l : List (Nat × LocalEffect)) :
    ∀ ids cache, (∀ p ∈ l, mhas ai p.1 = true) →
      removalLoop ai l ids cache = (ids, cache) := by
  induction l with
  | nil => intro ids cache h; simp [removalLoop]
  | cons p rest ih =>
      intro ids cache h
      obtain ⟨sid, eff⟩ := p
      rw [removalLoop_cons_skip ai sid eff rest ids cache (h (sid, eff) (List.mem_cons_self _ _))]
      exact ih ids cache (fun q hq => h q (List.mem_cons_of_mem _ hq))

/-! ## addLoop lemmas -/

theorem addLoop_cons_skip (ebs : List (Nat × LocalEffect)) (bounds : Nat → Option Bounds)
    (k0 : Nat) (it0 : Item) (c0 : AuroraConfig) (rest : List (Nat × (Item × AuroraConfig)))
    (ids : List Nat) (adds : List LocalEffect) (cache : List (Nat × Snapshot)) (nid : Nat)
    (h : mget cache k0 = some (effectSnapshot c0 it0) ∧ mhas ebs k0 = true) :
    addLoop ebs bounds ((k0, (it0, c0)) :: rest) ids adds cache nid
      = addLoop ebs bounds rest ids adds cache nid := by
  simp only [addLoop]
  rw [if_pos h]

theorem addLoop_cons_go (ebs : List (Nat × LocalEffect)) (bounds : Nat → Option Bounds)
    (k0 : Nat) (it0 : Item) (c0 : AuroraConfig) (rest : List (Nat × (Item × AuroraConfig)))
    (ids : List Nat) (adds : List LocalEffect) (cache : List (Nat × Snapshot)) (nid : Nat)
    (h : ¬(mget cache k0 = some (effectSnapshot c0 it0) ∧ mhas ebs k0 = true)) :
    addLoop ebs bounds ((k0, (it0, c0)) :: rest) ids adds cache nid
      = addLoop ebs bounds rest
          (match mget ebs k0 with
           | some ex => if ex.id ∈ ids then ids else ids ++ [ex.id]
           | none => ids)
          (if c0.e then adds ++ [buildAuroraEffect it0 c0 bounds nid] else adds)
          (mset cache k0 (effectSnapshot c0 it0))
          (if c0.e then nid + 1 else nid) := by
  simp only [addLoop]
  rw [if_neg h]

theorem addLoop_nil (ebs : List (Nat × LocalEffect)) (bounds : Nat → Option Bounds)
    (ids : List Nat) (adds : List LocalEffect) (cache : List (Nat × Snapshot)) (nid : Nat) :
    addLoop ebs bounds [] ids adds cache nid
      = { ids := ids, adds := adds, cache := cache, nid := nid } := by
  simp [addLoop]

theorem addLoop_ids_mono (ebs : List (Nat × LocalEffect)) (bounds : Nat → Option Bounds)
    (l : List (Nat × (Item × AuroraConfig))) :
    ∀ ids adds cache nid id, id ∈ ids →
      id ∈ (addLoop ebs bounds l ids adds cache nid).ids := by
  induction l with
  | nil => intro ids adds cache nid id h; simpa [addLoop_nil] using h
  | cons p rest ih =>
      intro ids adds cache nid id h
      obtain ⟨k0, it0, c0⟩ := p
      by_cases hs : (mget cache k0 = some (effectSnapshot c0 it0) ∧ mhas ebs k0 = true)
      · rw [addLoop_cons_skip ebs bounds k0 it0 c0 rest ids adds cache nid hs]
        exact ih ids adds cache nid id h
      · rw [addLoop_cons_go ebs bounds k0 it0 c0 rest ids adds cache nid hs]
        apply ih
        cases hx : mget ebs k0 with
        | none => simpa using h
        | some ex =>
            by_cases hin : ex.id ∈ ids
            · simpa [hin] using h
            · simp [hin]
              exact Or.inl h

theorem addLoop_adds_mono (ebs : List (Nat × LocalEffect)) (bounds : Nat → Option Bounds)
    (l : List (Nat × (Item × AuroraConfig))) :
    ∀ ids adds cache nid e, e ∈ adds →
      e ∈ (addLoop ebs bounds l ids adds cache nid).adds := by
  induction l with
  | nil => intro ids adds cache nid e h; simpa [addLoop_nil] using h
  | cons p rest ih =>
      intro ids adds cache nid e h
      obtain ⟨k0, it0, c0⟩ := p
      by_cases hs : (mget cache k0 = some (effectSnapshot c0 it0) ∧ mhas ebs k0 = true)
      · rw [addLoop_cons_skip ebs bounds k0 it0 c0 rest ids adds cache nid hs]
        exact ih ids adds cache nid e h
      · rw [addLoop_cons_go ebs bounds k0 it0 c0 rest ids adds cache nid hs]
        apply ih
        by_cases he : c0.e
        · simp [he]
          exact Or.inl h
        · simpa [he] using h

theorem addLoop_nid_mono (ebs : List (Nat × LocalEffect)) (bounds : Nat → Option Bounds)
    (l : List (Nat × (Item × AuroraConfig))) :
    ∀ ids adds cache nid, nid ≤ (addLoop ebs bounds l ids adds cache nid).nid := by
  induction l with
  | nil => intro ids adds cache nid; simp [addLoop_nil]
  | cons p rest ih =>
      intro ids adds cache nid
      obtain ⟨k0, it0, c0⟩ := p
      by_cases hs : (mget cache k0 = some (effectSnapshot c0 it0) ∧ mhas ebs k0 = true)
      · rw [addLoop_cons_skip ebs bounds k0 it0 c0 rest ids adds cache nid hs]
        exact ih ids adds cache nid
      · rw [addLoop_cons_go ebs bounds k0 it0 c0 rest ids adds cache nid hs]
        have h1 : nid ≤ (if c0.e = true then nid + 1 else nid) := by
          split <;> omega
        exact le_trans h1 (ih _ _ _ _)

theorem addLoop_cache_stable (ebs : List (Nat × LocalEffect)) (bounds : Nat → Option Bounds)
    (l : List (Nat × (Item × AuroraConfig))) :
    ∀ ids adds cache nid k, k ∉ l.map Prod.fst →
      mget (addLoop ebs bounds l ids adds cache nid).cache k = mget cache k := by
  induction l with
  | nil => intro ids adds cache nid k hk; simp [addLoop_nil]
  | cons p rest ih =>
      intro ids adds cache nid k hk
      obtain ⟨k0, it0, c0⟩ := p
      simp only [List.map_cons, List.mem_cons] at hk
      push_neg at hk
      by_cases hs : (mget cache k0 = some (effectSnapshot c0 it0) ∧ mhas ebs k0 = true)
      · rw [addLoop_cons_skip ebs bounds k0 it0 c0 rest ids adds cache nid hs]
        exact ih ids adds cache nid k hk.2
      · rw [addLoop_cons_go ebs bounds k0 it0 c0 rest ids adds cache nid hs]
        rw [ih _ _ _ _ k hk.2]
        exact mget_mset_ne cache k0 k _ hk.1

theorem addLoop_cache_set (ebs : List (Nat × LocalEffect)) (bounds : Nat → Option Bounds)
    (l : List (Nat × (Item × AuroraConfig))) :
    ∀ ids adds cache nid k it c, (l.map Prod.fst).Nodup → (k, (it, c)) ∈ l →
      mget (addLoop ebs bounds l ids adds cache nid).cache k
        = some (effectSnapshot c it) := by
  induction l with
  | nil => intro ids adds cache nid k it c hk h; simp at h
  | cons p rest ih =>
      intro ids adds cache nid k it c hk hmem
      obtain ⟨k0, it0, c0⟩ := p
      simp only [List.map_cons, List.nodup_cons] at hk
      rcases List.mem_cons.mp hmem with h | h
      · simp only [Prod.mk.injEq] at h
        obtain ⟨hk0, hit0, hc0⟩ := h
        subst hk0
        subst hit0
        subst hc0
        by_cases hs : (mget cache k = some (effectSnapshot c it) ∧ mhas ebs k = true)
        · rw [addLoop_cons_skip ebs bounds k it c rest ids adds cache nid hs]
          rw [addLoop_cache_stable ebs bounds rest ids adds cache nid k hk.1]
          exact hs.1
        · rw [addLoop_cons_go ebs bounds k it c rest ids adds cache nid hs]
          rw [addLoop_cache_stable ebs bounds rest _ _ _ _ k hk.1]
          exact mget_mset_self cache k _
      · by_cases hs : (mget cache k0 = some (effectSnapshot c0 it0) ∧ mhas ebs k0 = true)
        · rw [addLoop_cons_skip ebs bounds k0 it0 c0 rest ids adds cache nid hs]
          exact ih ids adds cache nid k it c hk.2 h
        · rw [addLoop_cons_go ebs bounds k0 it0 c0 rest ids adds cache nid hs]
          exact ih _ _ _ _ k it c hk.2 h

theorem addLoop_noop (ebs : List (Nat × LocalEffect)) (bounds : Nat → Option Bounds)
    (l : List (Nat × (Item × AuroraConfig))) :
    ∀ ids adds cache nid,
      (∀ p ∈ l, mget cache p.1 = some (effectSnapshot p.2.2 p.2.1) ∧
        (mhas ebs p.1 = true ∨ p.2.2.e = false)) →
      addLoop ebs bounds l ids adds cache nid
        = { ids := ids, adds := adds, cache := cache, nid := nid } := by
  induction l with
  | nil => intro ids adds cache nid h; exact addLoop_nil ebs bounds ids adds cache nid
  | cons p rest ih =>
      intro ids adds cache nid h
      obtain ⟨k0, it0, c0⟩ := p
      have h0 := h (k0, (it0, c0)) (List.mem_cons_self _ _)
      simp only at h0
      by_cases hbs : mhas ebs k0 = true
      · rw [addLoop_cons_skip ebs bounds k0 it0 c0 rest ids adds cache nid ⟨h0.1, hbs⟩]
        exact ih ids adds cache nid (fun q hq => h q (List.mem_cons_of_mem _ hq))
      · have he : c0.e = false := h0.2.resolve_left hbs
        have hs : ¬(mget cache k0 = some (effectSnapshot c0 it0) ∧ mhas ebs k0 = true) := by
          intro hc
          exact hbs hc.2
        rw [addLoop_cons_go ebs bounds k0 it0 c0 rest ids adds cache nid hs]
        have hnone : mget ebs k0 = none := by
          unfold mhas at hbs
          cases hm : mget ebs k0 with
          | none => rfl
          | some ex => rw [hm] at hbs; simp at hbs
        rw [hnone]
        simp only [he, Bool.false_eq_true, if_false]
        rw [mset_same cache k0 _ h0.1]
        exact ih ids adds cache nid (fun q hq => h q (List.mem_cons_of_mem _ hq))

theorem addLoop_ids_spec (ebs : List (Nat × LocalEffect)) (bounds : Nat → Option Bounds)
    (l : List (Nat × (Item × AuroraConfig))) :
    ∀ ids adds cache nid id, (l.map Prod.fst).Nodup →
      id ∈ (addLoop ebs bounds l ids adds cache nid).ids →
      id ∈ ids ∨ ∃ k ex it c, (k, (it, c)) ∈ l ∧ mget ebs k = some ex ∧ ex.id = id ∧
        ¬(mget cache k = some (effectSnapshot c it) ∧ mhas ebs k = true) := by
  induction l with
  | nil =>
      intro ids adds cache nid id hk h
      exact Or.inl (by simpa [addLoop_nil] using h)
  | cons p rest ih =>
      intro ids adds cache nid id hk h
      obtain ⟨k0, it0, c0⟩ := p
      simp only [List.map_cons, List.nodup_cons] at hk
      by_cases hs : (mget cache k0 = some (effectSnapshot c0 it0) ∧ mhas ebs k0 = true)
      · rw [addLoop_cons_skip ebs bounds k0 it0 c0 rest ids adds cache nid hs] at h
        rcases ih ids adds cache nid id hk.2 h with h' | ⟨k, ex, it, c, hmem, hx, hid, hc⟩
        · exact Or.inl h'
        · exact Or.inr ⟨k, ex, it, c, List.mem_cons_of_mem _ hmem, hx, hid, hc⟩
      · rw [addLoop_cons_go ebs bounds k0 it0 c0 rest ids adds cache nid hs] at h
        rcases ih _ _ _ _ id hk.2 h with h' | ⟨k, ex, it, c, hmem, hx, hid, hc⟩
        · -- id came from the modified ids accumulator
          cases hx0 : mget ebs k0 with
          | none =>
              rw [hx0] at h'
              exact Or.inl h'
          | some ex0 =>
              rw [hx0] at h'
              by_cases hin : ex0.id ∈ ids
              · exact Or.inl (by simpa [hin] using h')
              · have h'' : id ∈ ids ∨ id = ex0.id := by simpa [hin] using h'
                rcases h'' with h'' | h''
                · exact Or.inl h''
                · exact Or.inr ⟨k0, ex0, it0, c0, List.mem_cons_self _ _, hx0, h''.symm, hs⟩
        · -- id came from a later entry; its key differs from k0
          have hkne : k ≠ k0 := by
            intro hEq
            apply hk.1
            rw [← hEq]
            exact List.mem_map.mpr ⟨(k, (it, c)), hmem, rfl⟩
          rw [mget_mset_ne cache k0 k _ hkne] at hc
          exact Or.inr ⟨k, ex, it, c, List.mem_cons_of_mem _ hmem, hx, hid, hc⟩

theorem addLoop_adds_spec (ebs : List (Nat × LocalEffect)) (bounds : Nat → Option Bounds)
    (l : List (Nat × (Item × AuroraConfig))) :
    ∀ ids adds cache nid e, (l.map Prod.fst).Nodup →
      e ∈ (addLoop ebs bounds l ids adds cache nid).adds →
      e ∈ adds ∨ ∃ k it c j, (k, (it, c)) ∈ l ∧ c.e = true ∧
        e = buildAuroraEffect it c bounds j ∧ nid ≤ j ∧
        j < (addLoop ebs bounds l ids adds cache nid).nid ∧
        ¬(mget cache k = some (effectSnapshot c it) ∧ mhas ebs k = true) := by
  induction l with
  | nil =>
      intro ids adds cache nid e hk h
      exact Or.inl (by simpa [addLoop_nil] using h)
  | cons p rest ih =>
      intro ids adds cache nid e hk h
      obtain ⟨k0, it0, c0⟩ := p
      simp only [List.map_cons, List.nodup_cons] at hk
      by_cases hs : (mget cache k0 = some (effectSnapshot c0 it0) ∧ mhas ebs k0 = true)
      · rw [addLoop_cons_skip ebs bounds k0 it0 c0 rest ids adds cache nid hs] at h ⊢
        rcases ih ids adds cache nid e hk.2 h with h' | ⟨k, it, c, j, hmem, he, hbuild, hj1, hj2, hc⟩
        · exact Or.inl h'
        · exact Or.inr ⟨k, it, c, j, List.mem_cons_of_mem _ hmem, he, hbuild, hj1, hj2, hc⟩
      · rw [addLoop_cons_go ebs bounds k0 it0 c0 rest ids adds cache nid hs] at h ⊢
        rcases ih _ _ _ _ e hk.2 h with h' | ⟨k, it, c, j, hmem, he, hbuild, hj1, hj2, hc⟩
        · -- e is in the modified adds accumulator
          by_cases he0 : c0.e = true
          · rw [if_pos he0] at h'
            rcases List.mem_append.mp h' with h'' | h''
            · exact Or.inl h''
            · simp at h''
              refine Or.inr ⟨k0, it0, c0, nid, List.mem_cons_self _ _, he0, h'', le_refl nid, ?_, hs⟩
              simp only [he0, eq_self_iff_true, if_true]
              exact lt_of_lt_of_le (Nat.lt_succ_self nid) (addLoop_nid_mono ebs bounds rest _ _ _ _)
          · rw [if_neg he0] at h'
            exact Or.inl h'
        · -- e was produced by a later entry
          have hkne : k ≠ k0 := by
            intro hEq
            apply hk.1
            rw [← hEq]
            exact List.mem_map.mpr ⟨(k, (it, c)), hmem, rfl⟩
          rw [mget_mset_ne cache k0 k _ hkne] at hc
          have hj1' : nid ≤ j := by
            have : nid ≤ (if c0.e = true then nid + 1 else nid) := by split <;> omega
            omega
          exact Or.inr ⟨k, it, c, j, List.mem_cons_of_mem _ hmem, he, hbuild, hj1', hj2, hc⟩

theorem addLoop_pushed (ebs : List (Nat × LocalEffect)) (bounds : Nat → Option Bounds)
    (l : List (Nat × (Item × AuroraConfig))) :
    ∀ ids adds cache nid k it c, (l.map Prod.fst).Nodup → (k, (it, c)) ∈ l →
      ¬(mget cache k = some (effectSnapshot c it) ∧ mhas ebs k = true) →
      ∀ ex, mget ebs k = some ex →
        ex.id ∈ (addLoop ebs bounds l ids adds cache nid).ids := by
  induction l with
  | nil => intro ids adds cache nid k it c hk h; simp at h
  | cons p rest ih =>
      intro ids adds cache nid k it c hk hmem hnskip ex hx
      obtain ⟨k0, it0, c0⟩ := p
      simp only [List.map_cons, List.nodup_cons] at hk
      rcases List.mem_cons.mp hmem with h | h
      · simp only [Prod.mk.injEq] at h
        obtain ⟨hk0, hit0, hc0⟩ := h
        subst hk0; subst hit0; subst hc0
        rw [addLoop_cons_go ebs bounds k it c rest ids adds cache nid hnskip]
        apply addLoop_ids_mono
        rw [hx]
        by_cases hin : ex.id ∈ ids
        · simp [hin]
        · simp [hin]
      · have hkne : k ≠ k0 := by
          intro hEq
          apply hk.1
          rw [← hEq]
          exact List.mem_map.mpr ⟨(k, (it, c)), h, rfl⟩
        by_cases hs : (mget cache k0 = some (effectSnapshot c0 it0) ∧ mhas ebs k0 = true)
        · rw [addLoop_cons_skip ebs bounds k0 it0 c0 rest ids adds cache nid hs]
          exact ih ids adds cache nid k it c hk.2 h hnskip ex hx
        · rw [addLoop_cons_go ebs bounds k0 it0 c0 rest ids adds cache nid hs]
          apply ih _ _ _ _ k it c hk.2 h _ ex hx
          rw [mget_mset_ne cache k0 k _ hkne]
          exact hnskip

theorem addLoop_enabled_adds (ebs : List (Nat × LocalEffect)) (bounds : Nat → Option Bounds)
    (l : List (Nat × (Item × AuroraConfig))) :
    ∀ ids adds cache nid k it c, (l.map Prod.fst).Nodup → (k, (it, c)) ∈ l →
      ¬(mget cache k = some (effectSnapshot c it) ∧ mhas ebs k = true) →
      c.e = true →
      ∃ e ∈ (addLoop ebs bounds l ids adds cache nid).adds,
        e.source = some it.id ∧ e.tagged = true := by
  induction l with
  | nil => intro ids adds cache nid k it c hk h; simp at h
  | cons p rest ih =>
      intro ids adds cache nid k it c hk hmem hnskip he
      obtain ⟨k0, it0, c0⟩ := p
      simp only [List.map_cons, List.nodup_cons] at hk
      rcases List.mem_cons.mp hmem with h | h
      · simp only [Prod.mk.injEq] at h
        obtain ⟨hk0, hit0, hc0⟩ := h
        subst hk0; subst hit0; subst hc0
        rw [addLoop_cons_go ebs bounds k it c rest ids adds cache nid hnskip]
        refine ⟨buildAuroraEffect it c bounds nid, ?_, rfl, rfl⟩
        apply addLoop_adds_mono
        simp [he]
      · by_cases hs : (mget cache k0 = some (effectSnapshot c0 it0) ∧ mhas ebs k0 = true)
        · rw [addLoop_cons_skip ebs bounds k0 it0 c0 rest ids adds cache nid hs]
          exact ih ids adds cache nid k it c hk.2 h hnskip he
        · have hkne : k ≠ k0 := by
            intro hEq
            apply hk.1
            rw [← hEq]
            exact List.mem_map.mpr ⟨(k, (it, c)), h, rfl⟩
          rw [addLoop_cons_go ebs bounds k0 it0 c0 rest ids adds cache nid hs]
          apply ih _ _ _ _ k it c hk.2 h _ he
          rw [mget_mset_ne cache k0 k _ hkne]
          exact hnskip

theorem addLoop_countP_stable (ebs : List (Nat × LocalEffect)) (bounds : Nat → Option Bounds)
    (l : List (Nat × (Item × AuroraConfig))) :
    ∀ ids adds cache nid x,
      (∀ k' it' c', (k', (it', c')) ∈ l → it'.id = k') →
      x ∉ l.map Prod.fst →
      ((addLoop ebs bounds l ids adds cache nid).adds).countP
          (fun e => e.tagged && e.source == some x)
        = adds.countP (fun e => e.tagged && e.source == some x) := by
  induction l with
  | nil => intro ids adds cache nid x hid hx; simp [addLoop_nil]
  | cons p rest ih =>
      intro ids adds cache nid x hid hx
      obtain ⟨k0, it0, c0⟩ := p
      simp only [List.map_cons, List.mem_cons] at hx
      push_neg at hx
      by_cases hs : (mget cache k0 = some (effectSnapshot c0 it0) ∧ mhas ebs k0 = true)
      · rw [addLoop_cons_skip ebs bounds k0 it0 c0 rest ids adds cache nid hs]
        exact ih ids adds cache nid x (fun k' it' c' hm => hid k' it' c' (List.mem_cons_of_mem _ hm)) hx.2
      · rw [addLoop_cons_go ebs bounds k0 it0 c0 rest ids adds cache nid hs]
        rw [ih _ _ _ _ x (fun k' it' c' hm => hid k' it' c' (List.mem_cons_of_mem _ hm)) hx.2]
        by_cases he : c0.e = true
        · rw [if_pos he, List.countP_append]
          have hidk : it0.id = k0 := hid k0 it0 c0 (List.mem_cons_self _ _)
          have hfe : ((buildAuroraEffect it0 c0 bounds nid).tagged &&
              (buildAuroraEffect it0 c0 bounds nid).source == some x) = false := by
            simp [buildAuroraEffect, hidk]
            intro hcontra
            exact absurd hcontra.symm hx.1
          simp [List.countP_cons, hfe]
        · rw [if_neg he]

theorem addLoop_countP_le (ebs : List (Nat × LocalEffect)) (bounds : Nat → Option Bounds)
    (l : List (Nat × (Item × AuroraConfig))) :
    ∀ ids adds cache nid x, (l.map Prod.fst).Nodup →
      (∀ k' it' c', (k', (it', c')) ∈ l → it'.id = k') →
      adds.countP (fun e => e.tagged && e.source == some x) = 0 →
      ((addLoop ebs bounds l ids adds cache nid).adds).countP
          (fun e => e.tagged && e.source == some x) ≤ 1 := by
  induction l with
  | nil => intro ids adds cache nid x hk hid h0; simp [addLoop_nil, h0]
  | cons p rest ih =>
      intro ids adds cache nid x hk hid h0
      obtain ⟨k0, it0, c0⟩ := p
      simp only [List.map_cons, List.nodup_cons] at hk
      have hidrest : ∀ k' it' c', (k', (it', c')) ∈ rest → it'.id = k' :=
        fun k' it' c' hm => hid k' it' c' (List.mem_cons_of_mem _ hm)
      by_cases hs : (mget cache k0 = some (effectSnapshot c0 it0) ∧ mhas ebs k0 = true)
      · rw [addLoop_cons_skip ebs bounds k0 it0 c0 rest ids adds cache nid hs]
        exact ih ids adds cache nid x hk.2 hidrest h0
      · rw [addLoop_cons_go ebs bounds k0 it0 c0 rest ids adds cache nid hs]
        by_cases he : c0.e = true
        · rw [if_pos he]
          by_cases hxk : x = k0
          · subst hxk
            rw [addLoop_countP_stable ebs bounds rest _ _ _ _ x hidrest hk.1]
            rw [List.countP_append, h0]
            simp only [List.countP_cons, List.countP_nil, Nat.zero_add]
            split <;> omega
          · apply ih _ _ _ _ x hk.2 hidrest
            rw [List.countP_append, h0]
            have hidk : it0.id = k0 := hid k0 it0 c0 (List.mem_cons_self _ _)
            have hb : ((buildAuroraEffect it0 c0 bounds nid).tagged &&
                (buildAuroraEffect it0 c0 bounds nid).source == some x) = false := by
              simp [buildAuroraEffect, hidk]
              intro hcontra
              exact absurd hcontra.symm hxk
            simp [hb]
        · rw [if_neg he]
          exact ih _ _ _ _ x hk.2 hidrest h0

theorem addLoop_adds_nodup (ebs : List (Nat × LocalEffect)) (bounds : Nat → Option Bounds)
    (l : List (Nat × (Item × AuroraConfig))) :
    ∀ ids adds cache nid,
      (∀ e ∈ adds, e.id < nid) → (adds.map LocalEffect.id).Nodup →
      ((addLoop ebs bounds l ids adds cache nid).adds.map LocalEffect.id).Nodup ∧
      ∀ e ∈ (addLoop ebs bounds l ids adds cache nid).adds,
        e.id < (addLoop ebs bounds l ids adds cache nid).nid := by
  induction l with
  | nil =>
      intro ids adds cache nid hlt hnd
      rw [addLoop_nil]
      exact ⟨hnd, hlt⟩
  | cons p rest ih =>
      intro ids adds cache nid hlt hnd
      obtain ⟨k0, it0, c0⟩ := p
      by_cases hs : (mget cache k0 = some (effectSnapshot c0 it0) ∧ mhas ebs k0 = true)
      · rw [addLoop_cons_skip ebs bounds k0 it0 c0 rest ids adds cache nid hs]
        exact ih ids adds cache nid hlt hnd
      · rw [addLoop_cons_go ebs bounds k0 it0 c0 rest ids adds cache nid hs]
        by_cases he : c0.e = true
        · rw [if_pos he]
          simp only [he, eq_self_iff_true, if_true]
          apply ih
          · intro e hme
            rcases List.mem_append.mp hme with hme' | hme'
            · exact Nat.lt_succ_of_lt (hlt e hme')
            · simp at hme'
              rw [hme']
              simp [buildAuroraEffect]
          · rw [List.map_append]
            rw [List.nodup_append]
            refine ⟨hnd, by simp [buildAuroraEffect], ?_⟩
            intro a ha
            simp [buildAuroraEffect]
            intro hb
            rcases List.mem_map.mp ha with ⟨e, hme, hid⟩
            rw [hb] at hid
            exact absurd hid (Nat.ne_of_lt (hlt e hme))
        · rw [if_neg he]
          simp only [he, if_false]
          exact ih _ _ _ _ hlt hnd

/-! ## Whole-pass lemmas -/

theorem passCompute_eq (st : ReconcileState) (items : List Item)
    (bounds : Nat → Option Bounds) :
    passCompute st items bounds
      = addLoop (effectsBySourceOf st.effects) bounds (auroraItemsOf items)
          (removalLoop (auroraItemsOf items) (effectsBySourceOf st.effects) [] st.cache).1
          []
          (removalLoop (auroraItemsOf items) (effectsBySourceOf st.effects) [] st.cache).2
          st.nextId := rfl

theorem reconcileOk_eq (st : ReconcileState) (items : List Item)
    (bounds : Nat → Option Bounds) :
    reconcileOk st items bounds
      = { effects := st.effects.filter
            (fun e => decide (e.id ∉ (passCompute st items bounds).ids))
            ++ (passCompute st items bounds).adds,
          cache := (passCompute st items bounds).cache,
          nextId := (passCompute st items bounds).nid } := by
  unfold reconcileOk reconcileEffects reconcileAttempt
  simp

/-- Every id a pass schedules for deletion is the id of a tracked tagged
effect; the provenance also records why it was scheduled. -/
theorem pass_ids_full (st : ReconcileState) (items : List Item)
    (bounds : Nat → Option Bounds) :
    ∀ id ∈ passIdsToRemove st items bounds,
      ∃ sid eff, mget (effectsBySourceOf st.effects) sid = some eff ∧ eff.id = id ∧
        (mhas (auroraItemsOf items) sid = false ∨
         ∃ it c, mget (auroraItemsOf items) sid = some (it, c) ∧
           ¬(mget st.cache sid = some (effectSnapshot c it) ∧
             mhas (effectsBySourceOf st.effects) sid = true)) := by
  intro id hid
  unfold passIdsToRemove at hid
  rw [passCompute_eq] at hid
  rcases addLoop_ids_spec _ bounds _ _ _ _ _ id (ai_keys_nodup items) hid with
    h | ⟨k, ex, it, c, hmem, hx, hexid, hc⟩
  · rcases removalLoop_ids_spec _ _ _ _ id h with h' | ⟨sid, eff, hmem, heq, hha⟩
    · simp at h'
    · refine ⟨sid, eff, ?_, heq, Or.inl hha⟩
      exact mget_of_mem_nodup _ sid eff (ebs_keys_nodup st.effects) hmem
  · have hai : mget (auroraItemsOf items) k = some (it, c) :=
      mget_of_mem_nodup _ k (it, c) (ai_keys_nodup items) hmem
    have hhask : mhas (auroraItemsOf items) k = true := by
      unfold mhas
      rw [hai]
      rfl
    have hcc : mget ((removalLoop (auroraItemsOf items)
        (effectsBySourceOf st.effects) [] st.cache)).2 k = mget st.cache k :=
      removalLoop_cache_mget _ _ _ _ k hhask
    rw [hcc] at hc
    exact ⟨k, ex, hx, hexid, Or.inr ⟨it, c, hai, hc⟩⟩

/-- Every pass updates the cache entry of every aurora item to its
current fingerprint. -/
theorem pass_cache_set (st : ReconcileState) (items : List Item)
    (bounds : Nat → Option Bounds) (k : Nat) (it : Item) (c : AuroraConfig)
    (hai : mget (auroraItemsOf items) k = some (it, c)) :
    mget (passCompute st items bounds).cache k = some (effectSnapshot c it) := by
  rw [passCompute_eq]
  exact addLoop_cache_set _ bounds _ _ _ _ _ k it c (ai_keys_nodup items)
    (mem_of_mget _ _ _ hai)

/-- If an aurora item's entry is not skipped (stale or absent cache entry,
or no existing effect), the existing effect keyed by it is scheduled for
deletion. -/
theorem pass_pushed (st : ReconcileState) (items : List Item)
    (bounds : Nat → Option Bounds) (k : Nat) (it : Item) (c : AuroraConfig)
    (hai : mget (auroraItemsOf items) k = some (it, c))
    (hnskip : ¬(mget st.cache k = some (effectSnapshot c it) ∧
       mhas (effectsBySourceOf st.effects) k = true)) :
    ∀ ex, mget (effectsBySourceOf st.effects) k = some ex →
      ex.id ∈ passIdsToRemove st items bounds := by
  intro ex hx
  unfold passIdsToRemove
  rw [passCompute_eq]
  apply addLoop_pushed _ bounds _ _ _ _ _ k it c (ai_keys_nodup items)
    (mem_of_mget _ _ _ hai) _ ex hx
  have hhask : mhas (auroraItemsOf items) k = true := by
    unfold mhas
    rw [hai]
    rfl
  rw [removalLoop_cache_mget _ _ _ _ k hhask]
  exact hnskip

/-- If an enabled aurora item's entry is not skipped, the pass builds an
effect for it. -/
theorem pass_enabled_adds (st : ReconcileState) (items : List Item)
    (bounds : Nat → Option Bounds) (k : Nat) (it : Item) (c : AuroraConfig)
    (hai : mget (auroraItemsOf items) k = some (it, c))
    (hnskip : ¬(mget st.cache k = some (effectSnapshot c it) ∧
       mhas (effectsBySourceOf st.effects) k = true))
    (he : c.e = true) :
    ∃ e ∈ passAdds st items bounds, e.source = some it.id ∧ e.tagged = true := by
  unfold passAdds
  rw [passCompute_eq]
  apply addLoop_enabled_adds _ bounds _ _ _ _ _ k it c (ai_keys_nodup items)
    (mem_of_mget _ _ _ hai) _ he
  have hhask : mhas (auroraItemsOf items) k = true := by
    unfold mhas
    rw [hai]
    rfl
  rw [removalLoop_cache_mget _ _ _ _ k hhask]
  exact hnskip

/-- Provenance of every built effect of a pass. -/
theorem pass_adds_spec (st : ReconcileState) (items : List Item)
    (bounds : Nat → Option Bounds) :
    ∀ e ∈ passAdds st items bounds,
      ∃ k it c j, mget (auroraItemsOf items) k = some (it, c) ∧ c.e = true ∧
        e = buildAuroraEffect it c bounds j ∧ st.nextId ≤ j ∧
        j < (passCompute st items bounds).nid ∧
        ¬(mget st.cache k = some (effectSnapshot c it) ∧
          mhas (effectsBySourceOf st.effects) k = true) := by
  intro e he
  unfold passAdds at he
  rw [passCompute_eq] at he
  rcases addLoop_adds_spec _ bounds _ _ _ _ _ e (ai_keys_nodup items) he with
    h | ⟨k, it, c, j, hmem, hce, hbuild, hj1, hj2, hc⟩
  · simp at h
  · have hai : mget (auroraItemsOf items) k = some (it, c) :=
      mget_of_mem_nodup _ k (it, c) (ai_keys_nodup items) hmem
    have hhask : mhas (auroraItemsOf items) k = true := by
      unfold mhas
      rw [hai]
      rfl
    rw [removalLoop_cache_mget _ _ _ _ k hhask] at hc
    refine ⟨k, it, c, j, hai, hce, hbuild, hj1, ?_, hc⟩
    rw [passCompute_eq]
    exact hj2

/-- A pass never builds two effects for the same source id. -/
theorem pass_adds_countP (st : ReconcileState) (items : List Item)
    (bounds : Nat → Option Bounds) (x : Nat) :
    (passAdds st items bounds).countP (fun e => e.tagged && e.source == some x) ≤ 1 := by
  unfold passAdds
  rw [passCompute_eq]
  apply addLoop_countP_le _ bounds _ _ _ _ _ x (ai_keys_nodup items)
  · intro k' it' c' hm
    exact ai_entry_id items k' it' c' hm
  · simp

/-- The ids of the effects a pass builds are fresh and pairwise
distinct. -/
theorem pass_adds_nodup (st : ReconcileState) (items : List Item)
    (bounds : Nat → Option Bounds) :
    ((passAdds st items bounds).map LocalEffect.id).Nodup ∧
    (∀ e ∈ passAdds st items bounds, e.id < (passCompute st items bounds).nid) ∧
    (∀ e ∈ passAdds st items bounds, st.nextId ≤ e.id) := by
  have h1 := addLoop_adds_nodup (effectsBySourceOf st.effects) bounds (auroraItemsOf items)
    (removalLoop (auroraItemsOf items) (effectsBySourceOf st.effects) [] st.cache).1
    []
    (removalLoop (auroraItemsOf items) (effectsBySourceOf st.effects) [] st.cache).2
    st.nextId (by simp) (by simp)
  refine ⟨?_, ?_, ?_⟩
  · unfold passAdds
    rw [passCompute_eq]
    exact h1.1
  · intro e he
    unfold passAdds at he
    rw [passCompute_eq] at he
    rw [passCompute_eq]
    exact h1.2 e he
  · intro e he
    rcases pass_adds_spec st items bounds e he with ⟨k, it, c, j, _, _, hbuild, hj1, _, _⟩
    rw [hbuild]
    simpa [buildAuroraEffect] using hj1

theorem pass_nid_mono (st : ReconcileState) (items : List Item)
    (bounds : Nat → Option Bounds) :
    st.nextId ≤ (passCompute st items bounds).nid := by
  rw [passCompute_eq]
  exact addLoop_nid_mono _ bounds _ _ _ _ _

theorem pass_removal_pushes (st : ReconcileState) (items : List Item)
    (bounds : Nat → Option Bounds) (sid : Nat) (ex : LocalEffect)
    (hx : mget (effectsBySourceOf st.effects) sid = some ex)
    (hno : mhas (auroraItemsOf items) sid = false) :
    ex.id ∈ passIdsToRemove st items bounds := by
  unfold passIdsToRemove
  rw [passCompute_eq]
  apply addLoop_ids_mono
  exact removalLoop_pushes _ _ _ _ sid ex (mem_of_mget _ _ _ hx) hno

theorem mem_reconcileOk (st : ReconcileState) (items : List Item)
    (bounds : Nat → Option Bounds) (e : LocalEffect) :
    e ∈ (reconcileOk st items bounds).effects ↔
      (e ∈ st.effects ∧ e.id ∉ passIdsToRemove st items bounds) ∨
      e ∈ passAdds st items bounds := by
  rw [reconcileOk_eq]
  simp only [List.mem_append, List.mem_filter, decide_eq_true_eq]
  unfold passIdsToRemove passAdds
  rfl

/-- Boolean attachment predicate unpacked. -/
theorem attach_pred_iff (e : LocalEffect) (x : Nat) :
    (e.tagged && e.source == some x) = true ↔ (e.tagged = true ∧ e.source = some x) := by
  simp

/-- One completed reconcile pass preserves the reconciler's state
invariant. -/
theorem invState_step (st : ReconcileState) (items : List Item)
    (bounds : Nat → Option Bounds) (hInv : InvState st) :
    InvState (reconcileOk st items bounds) := by
  obtain ⟨hTag, hLt, hNd, hCard⟩ := hInv
  refine ⟨?_, ?_, ?_, ?_⟩
  · -- every post effect is tagged
    intro e he
    rcases (mem_reconcileOk st items bounds e).mp he with ⟨hmem, _⟩ | hadd
    · exact hTag e hmem
    · rcases pass_adds_spec st items bounds e hadd with ⟨k, it, c, j, _, _, hbuild, _, _, _⟩
      rw [hbuild]
      rfl
  · -- every post id is below the advanced id supply
    intro e he
    rw [reconcileOk_eq]
    rcases (mem_reconcileOk st items bounds e).mp he with ⟨hmem, _⟩ | hadd
    · exact lt_of_lt_of_le (hLt e hmem) (pass_nid_mono st items bounds)
    · exact (pass_adds_nodup st items bounds).2.1 e hadd
  · -- post ids are pairwise distinct
    rw [reconcileOk_eq]
    simp only [List.map_append]
    rw [List.nodup_append]
    refine ⟨?_, (pass_adds_nodup st items bounds).1, ?_⟩
    · exact ((List.filter_sublist _).map LocalEffect.id).nodup hNd
    · intro a ha
      rcases List.mem_map.mp ha with ⟨e, hme, hid⟩
      rw [List.mem_filter] at hme
      intro hb
      rcases List.mem_map.mp hb with ⟨e', hme', hid'⟩
      have h1 : e.id < st.nextId := hLt e hme.1
      have h2 : st.nextId ≤ e'.id := (pass_adds_nodup st items bounds).2.2 e' hme'
      rw [hid] at h1
      rw [hid'] at h2
      omega
  · -- at most one attachment per source id
    intro x
    rw [reconcileOk_eq]
    unfold attachCount
    rw [List.countP_append]
    by_cases hz : (passCompute st items bounds).adds.countP
        (fun e => e.tagged && e.source == some x) = 0
    · rw [hz]
      have hle : (st.effects.filter
            (fun e => decide (e.id ∉ (passCompute st items bounds).ids))).countP
            (fun e => e.tagged && e.source == some x)
          ≤ st.effects.countP (fun e => e.tagged && e.source == some x) :=
        (List.filter_sublist _).countP_le _
      have := hCard x
      unfold attachCount at this
      omega
    · -- the pass built an effect for x: any kept attachment for x was scheduled away
      have hpos : 0 < (passCompute st items bounds).adds.countP
          (fun e => e.tagged && e.source == some x) := Nat.pos_of_ne_zero hz
      obtain ⟨eadd, hmadd, hpadd⟩ := List.countP_pos.mp hpos
      have hmadd' : eadd ∈ passAdds st items bounds := hmadd
      rcases pass_adds_spec st items bounds eadd hmadd' with
        ⟨k, it, c, j, hai, hce, hbuild, _, _, hnskip⟩
      have hsrc : eadd.source = some it.id := by rw [hbuild]; rfl
      have hkx : k = x := by
        have h1 := (attach_pred_iff eadd x).mp hpadd
        have h2 : it.id = k := (ai_mget_spec items k it c hai).2.2.2
        rw [hsrc] at h1
        have := h1.2
        simp at this
        omega
      rw [hkx] at hai hnskip
      have hkept : (st.effects.filter
            (fun e => decide (e.id ∉ (passCompute st items bounds).ids))).countP
            (fun e => e.tagged && e.source == some x) = 0 := by
        by_contra hnz2
        obtain ⟨K, hKm, hKp⟩ := List.countP_pos.mp (Nat.pos_of_ne_zero hnz2)
        rw [List.mem_filter] at hKm
        obtain ⟨hKmem, hKids⟩ := hKm
        obtain ⟨hKtag, hKsrc⟩ := (attach_pred_iff K x).mp hKp
        have hhas : mhas (effectsBySourceOf st.effects) x = true :=
          ebs_mhas_of_mem st.effects K x hKmem hKtag hKsrc
        obtain ⟨ex, hex⟩ := mget_isSome_of_mhas _ x hhas
        have hexfacts := ebs_mget_spec st.effects x ex hex
        have hKex : ex = K := by
          have hCx : st.effects.countP (fun e => e.tagged && e.source == some x) ≤ 1 := by
            have := hCard x
            unfold attachCount at this
            exact this
          apply countP_le_one_unique (fun e => e.tagged && e.source == some x)
            st.effects hCx ex hexfacts.1 K hKmem
          · exact (attach_pred_iff ex x).mpr ⟨hexfacts.2.1, hexfacts.2.2⟩
          · exact hKp
        have hin := pass_pushed st items bounds x it c hai hnskip ex hex
        rw [hKex] at hin
        rw [decide_eq_true_eq] at hKids
        exact hKids hin
      rw [hkept]
      have hle1 : (passCompute st items bounds).adds.countP
          (fun e => e.tagged && e.source == some x) ≤ 1 :=
        pass_adds_countP st items bounds x
      omega

/-- Every reachable state satisfies the reconciler's invariant. -/
theorem reachable_invState (s : ReconcileState) (h : Reachable s) : InvState s := by
  induction h with
  | base =>
      refine ⟨?_, ?_, ?_, ?_⟩ <;> simp [initialState, InvState, attachCount]
  | step s items bounds hs ih => exact invState_step s items bounds ih

/-! ## C4 — cardinality invariant -/

/-- C4: for every state reachable from no attachments by completed
reconcile passes, at most one RenderAttachment carries any given
source-id tag.  (States in which several attachments reference the same
source id are not reachable: the invariant below holds inductively, so
the quantification over such starting states inside the reachable set is
vacuously covered.) -/
theorem reconcile_attachment_cardinality (s : ReconcileState) (x : Nat)
    (h : Reachable s) : attachCount s.effects x ≤ 1 :=
  (reachable_invState s h).2.2.2 x

/-- C4 witness: the state after one pass over a configured item has at
most one attachment for it. -/
theorem reconcile_attachment_cardinality_witness :
    attachCount (reconcileOk initialState [itemMapImage] noBounds).effects 1 ≤ 1 :=
  reconcile_attachment_cardinality _ 1
    (Reachable.step initialState [itemMapImage] noBounds Reachable.base)

/-! ## C10 — the reconciler deletes only its own attachments -/

/-- C10: every id a reconcile pass hands to the batched deleteItems call
is the id of a local item carrying the Aurora effect tag (it came out of
the tag-filtered findAllEffects query), and a local item without the tag
is still present after the pass, whatever the failure flags. -/
theorem reconcile_deletes_only_tagged (st : ReconcileState) (items : List Item)
    (bounds : Nat → Option Bounds) (fd fa : Bool) (id : Nat) (e : LocalEffect)
    (hnd : (st.effects.map LocalEffect.id).Nodup) :
    (id ∈ passIdsToRemove st items bounds →
       ∃ e', e' ∈ st.effects ∧ e'.tagged = true ∧ e'.id = id) ∧
    (e ∈ st.effects → e.tagged = false →
       e ∈ (reconcileEffects st
         { items := items, bounds := bounds, failFind := false,
           failDelete := fd, failAdd := fa }).effects) := by
  constructor
  · intro hid
    rcases pass_ids_full st items bounds id hid with ⟨sid, eff, hm, heq, _⟩
    have h2 := ebs_mget_spec st.effects sid eff hm
    exact ⟨eff, h2.1, h2.2.1, heq⟩
  · intro hmem huntag
    have hidnot : e.id ∉ passIdsToRemove st items bounds := by
      intro hin
      rcases pass_ids_full st items bounds e.id hin with ⟨sid, eff, hm, heq, _⟩
      have h2 := ebs_mget_spec st.effects sid eff hm
      have heffe : eff = e := nodup_map_inj LocalEffect.id st.effects hnd eff h2.1 e hmem heq
      have hT := h2.2.1
      rw [heffe, huntag] at hT
      simp at hT
    unfold reconcileEffects reconcileAttempt
    simp only [Bool.false_eq_true, if_false]
    by_cases h1 : (passCompute st items bounds).ids ≠ [] ∧ (fd = true)
    · rw [if_pos (by simpa using h1)]
      exact hmem
    · rw [if_neg (by simpa using h1)]
      have hfil : e ∈ st.effects.filter
          (fun e' => decide (e'.id ∉ (passCompute st items bounds).ids)) := by
        rw [List.mem_filter]
        exact ⟨hmem, by simpa using hidnot⟩
      by_cases h2 : (passCompute st items bounds).adds ≠ [] ∧ (fa = true)
      · rw [if_pos (by simpa using h2)]
        exact hfil
      · rw [if_neg (by simpa using h2)]
        exact List.mem_append_left _ hfil

/-- C10 witness: in a state holding one tracked attachment (id 1,
source 5, about to be orphaned) and one untagged local item (id 9), the
pass over an empty item set schedules exactly the tagged attachment and
keeps the untagged item. -/
theorem reconcile_deletes_only_tagged_witness :
    (∃ e', e' ∈ stMixed.effects ∧ e'.tagged = true ∧ e'.id = 1) ∧
    effUntagged ∈ (reconcileEffects stMixed
      { items := [], bounds := noBounds, failFind := false,
        failDelete := false, failAdd := false }).effects :=
  ⟨(reconcile_deletes_only_tagged stMixed [] noBounds false false 1 effUntagged
      (by decide)).1 (by decide),
   (reconcile_deletes_only_tagged stMixed [] noBounds false false 1 effUntagged
      (by decide)).2 (by decide) (by decide)⟩

/-! ## C5 — disabled-implies-absent, amended -/

/-- C5 amended: in a state satisfying the reconciler's own ownership
invariant — at most one tagged attachment per source id, true of every
reachable state — after a completed pass, a configured MAP-layer object
with enabled = false has no attachment, PROVIDED the pass did not take
the fingerprint-equality skip path for it: either the pre-pass cache
entry differs from the current fingerprint, or no attachment existed
before the pass.  Both provisos are needed: the counterexample above
shows an attachment with a matching disabled fingerprint survives the
skip path, and without the uniqueness invariant a duplicate attachment
hidden by the Map (as in the idempotence counterexample) would also
survive a non-skipped pass. -/
theorem disabled_implies_absent_unless_skipped (st : ReconcileState) (items : List Item)
    (bounds : Nat → Option Bounds) (k : Nat) (it : Item) (c : AuroraConfig)
    (hcard : ∀ x, attachCount st.effects x ≤ 1)
    (hai : mget (auroraItemsOf items) k = some (it, c))
    (he : c.e = false)
    (hpre : mget st.cache k ≠ some (effectSnapshot c it) ∨ attachCount st.effects k = 0) :
    attachCount (reconcileOk st items bounds).effects k = 0 := by
  rw [reconcileOk_eq]
  unfold attachCount
  rw [List.countP_append]
  have hadds : (passCompute st items bounds).adds.countP
      (fun e => e.tagged && e.source == some k) = 0 := by
    by_contra hnz
    obtain ⟨e, hme, hpe⟩ := List.countP_pos.mp (Nat.pos_of_ne_zero hnz)
    rcases pass_adds_spec st items bounds e hme with
      ⟨k', it', c', j, hai', hce, hbuild, _, _, _⟩
    have hsrc : e.source = some it'.id := by rw [hbuild]; rfl
    have hk' : it'.id = k' := (ai_mget_spec items k' it' c' hai').2.2.2
    have hkk : k' = k := by
      have h1 := (attach_pred_iff e k).mp hpe
      rw [hsrc] at h1
      have := h1.2
      simp at this
      omega
    rw [hkk] at hai'
    rw [hai] at hai'
    have hcc : c' = c := by
      have := Option.some.inj hai'
      exact ((Prod.mk.injEq _ _ _ _).mp this |>.2).symm
    rw [hcc] at hce
    rw [he] at hce
    simp at hce
  have hkept : (st.effects.filter
      (fun e => decide (e.id ∉ (passCompute st items bounds).ids))).countP
      (fun e => e.tagged && e.source == some k) = 0 := by
    by_contra hnz
    obtain ⟨K, hKm, hKp⟩ := List.countP_pos.mp (Nat.pos_of_ne_zero hnz)
    rw [List.mem_filter] at hKm
    obtain ⟨hKmem, hKids⟩ := hKm
    obtain ⟨hKtag, hKsrc⟩ := (attach_pred_iff K k).mp hKp
    rcases hpre with hmis | hzero
    · have hnskip : ¬(mget st.cache k = some (effectSnapshot c it) ∧
          mhas (effectsBySourceOf st.effects) k = true) := fun hc => hmis hc.1
      have hhas : mhas (effectsBySourceOf st.effects) k = true :=
        ebs_mhas_of_mem st.effects K k hKmem hKtag hKsrc
      obtain ⟨ex, hex⟩ := mget_isSome_of_mhas _ k hhas
      have hexfacts := ebs_mget_spec st.effects k ex hex
      have hCx : st.effects.countP (fun e => e.tagged && e.source == some k) ≤ 1 := by
        have := hcard k
        unfold attachCount at this
        exact this
      have hKex : ex = K :=
        countP_le_one_unique _ st.effects hCx ex hexfacts.1 K hKmem
          ((attach_pred_iff ex k).mpr ⟨hexfacts.2.1, hexfacts.2.2⟩) hKp
      have hin := pass_pushed st items bounds k it c hai hnskip ex hex
      rw [hKex] at hin
      rw [decide_eq_true_eq] at hKids
      exact hKids hin
    · have : 0 < st.effects.countP (fun e => e.tagged && e.source == some k) :=
        List.countP_pos.mpr ⟨K, hKmem, hKp⟩
      unfold attachCount at hzero
      omega
  rw [hadds, hkept]

/-- C5 amended witness: a disabled configured item with no prior
attachment and empty cache stays attachment-free after a pass. -/
theorem disabled_implies_absent_unless_skipped_witness :
    attachCount (reconcileOk initialState [itemSeven] noBounds).effects 7 = 0 :=
  disabled_implies_absent_unless_skipped initialState [itemSeven] noBounds 7
    itemSeven cfgDisabled
    (by intro x; simp [initialState, attachCount])
    (by decide) rfl (Or.inr (by simp [initialState, attachCount]))

/-! ## C6 — idempotence, amended -/

/-- C6 amended: from any scene state satisfying the reconciler's own
ownership invariant (at most one tagged attachment per source id,
pairwise-distinct item ids — both hold in every reachable state), a
second reconcile pass with the same source-object set schedules no
deletions and builds no additions, so neither batched SDK call is
issued.  (The counterexample above shows the invariant is needed: with
two attachments sharing a source tag the second pass still deletes.) -/
theorem reconcile_idempotent_on_owned (st : ReconcileState) (items : List Item)
    (bounds : Nat → Option Bounds)
    (hcard : ∀ x, attachCount st.effects x ≤ 1)
    (hnd : (st.effects.map LocalEffect.id).Nodup) :
    passIdsToRemove (reconcileOk st items bounds) items bounds = [] ∧
    passAdds (reconcileOk st items bounds) items bounds = [] := by
  have hcountP : ∀ x, st.effects.countP (fun e => e.tagged && e.source == some x) ≤ 1 := by
    intro x
    have := hcard x
    unfold attachCount at this
    exact this
  -- Step A: every tagged effect surviving the first pass is keyed by a
  -- current aurora item.
  have hsrcA : ∀ e ∈ (reconcileOk st items bounds).effects, e.tagged = true →
      ∀ sid, e.source = some sid → mhas (auroraItemsOf items) sid = true := by
    intro e he htag sid hsid
    rcases (mem_reconcileOk st items bounds e).mp he with ⟨hmem, hnotin⟩ | hadd
    · by_contra hno
      have hno' : mhas (auroraItemsOf items) sid = false := by
        cases h : mhas (auroraItemsOf items) sid
        · rfl
        · exact absurd h hno
      have hhas : mhas (effectsBySourceOf st.effects) sid = true :=
        ebs_mhas_of_mem st.effects e sid hmem htag hsid
      obtain ⟨ex, hex⟩ := mget_isSome_of_mhas _ sid hhas
      have hexfacts := ebs_mget_spec st.effects sid ex hex
      have hKex : ex = e :=
        countP_le_one_unique _ st.effects (hcountP sid) ex hexfacts.1 e hmem
          ((attach_pred_iff ex sid).mpr ⟨hexfacts.2.1, hexfacts.2.2⟩)
          ((attach_pred_iff e sid).mpr ⟨htag, hsid⟩)
      have hin := pass_removal_pushes st items bounds sid ex hex hno'
      rw [hKex] at hin
      exact hnotin hin
    · rcases pass_adds_spec st items bounds e hadd with
        ⟨k, it, c, j, hai, hce, hbuild, _, _, _⟩
      have hsrc : e.source = some it.id := by rw [hbuild]; rfl
      have hidk : it.id = k := (ai_mget_spec items k it c hai).2.2.2
      have hsk : sid = k := by
        rw [hsid] at hsrc
        have := Option.some.inj hsrc
        omega
      rw [hsk]
      unfold mhas
      rw [hai]
      rfl
  -- Step B: the first pass left every aurora item's fingerprint cached.
  have hcache : ∀ k it c, mget (auroraItemsOf items) k = some (it, c) →
      mget (reconcileOk st items bounds).cache k = some (effectSnapshot c it) := by
    intro k it c hmg
    have hc1 : (reconcileOk st items bounds).cache = (passCompute st items bounds).cache := by
      rw [reconcileOk_eq]
    rw [hc1]
    exact pass_cache_set st items bounds k it c hmg
  -- Step C: every enabled aurora item has an attachment after the first
  -- pass.
  have hebs2 : ∀ k it c, mget (auroraItemsOf items) k = some (it, c) → c.e = true →
      mhas (effectsBySourceOf (reconcileOk st items bounds).effects) k = true := by
    intro k it c hmg hce
    by_cases hskip : (mget st.cache k = some (effectSnapshot c it) ∧
        mhas (effectsBySourceOf st.effects) k = true)
    · obtain ⟨ex, hex⟩ := mget_isSome_of_mhas _ k hskip.2
      have hexfacts := ebs_mget_spec st.effects k ex hex
      have hnotin : ex.id ∉ passIdsToRemove st items bounds := by
        intro hin
        rcases pass_ids_full st items bounds ex.id hin with ⟨sid, eff, hm, heq, hreason⟩
        have hefffacts := ebs_mget_spec st.effects sid eff hm
        have heffex : eff = ex :=
          nodup_map_inj LocalEffect.id st.effects hnd eff hefffacts.1 ex hexfacts.1 heq
        have hsidk : sid = k := by
          have h1 := hefffacts.2.2
          rw [heffex] at h1
          rw [hexfacts.2.2] at h1
          exact (Option.some.inj h1).symm
        rcases hreason with hno | ⟨it', c', hai', hnskip⟩
        · rw [hsidk] at hno
          unfold mhas at hno
          rw [hmg] at hno
          simp at hno
        · rw [hsidk] at hai'
          rw [hmg] at hai'
          have hpair := Option.some.inj hai'
          have hit : it' = it := ((Prod.mk.injEq _ _ _ _).mp hpair).1.symm
          have hc : c' = c := ((Prod.mk.injEq _ _ _ _).mp hpair).2.symm
          rw [hsidk, hit, hc] at hnskip
          exact hnskip hskip
      have hmem1 : ex ∈ (reconcileOk st items bounds).effects :=
        (mem_reconcileOk st items bounds ex).mpr (Or.inl ⟨hexfacts.1, hnotin⟩)
      exact ebs_mhas_of_mem _ ex k hmem1 hexfacts.2.1 hexfacts.2.2
    · obtain ⟨e, hme, hsrc, htag⟩ := pass_enabled_adds st items bounds k it c hmg hskip hce
      have hmem1 : e ∈ (reconcileOk st items bounds).effects :=
        (mem_reconcileOk st items bounds e).mpr (Or.inr hme)
      have hidk : it.id = k := (ai_mget_spec items k it c hmg).2.2.2
      rw [hidk] at hsrc
      exact ebs_mhas_of_mem _ e k hmem1 htag hsrc
  -- Step D: the second removal loop schedules nothing.
  have hD : removalLoop (auroraItemsOf items)
      (effectsBySourceOf (reconcileOk st items bounds).effects) []
      (reconcileOk st items bounds).cache
      = ([], (reconcileOk st items bounds).cache) := by
    apply removalLoop_noop
    intro p hp
    rcases ebsFold_mem (findAllEffects (reconcileOk st items bounds).effects) [] p hp with
      h | h
    · simp at h
    · have h1 := h.1
      unfold findAllEffects at h1
      rw [List.mem_filter] at h1
      exact hsrcA p.2 h1.1 (by simpa using h1.2) p.1 h.2
  -- Step E: the second add loop skips every item.
  have hE : addLoop (effectsBySourceOf (reconcileOk st items bounds).effects) bounds
      (auroraItemsOf items) [] [] (reconcileOk st items bounds).cache
      (reconcileOk st items bounds).nextId
      = { ids := [], adds := [], cache := (reconcileOk st items bounds).cache,
          nid := (reconcileOk st items bounds).nextId } := by
    apply addLoop_noop
    intro p hp
    obtain ⟨k, it, c⟩ := p
    have hmg : mget (auroraItemsOf items) k = some (it, c) :=
      mget_of_mem_nodup _ k (it, c) (ai_keys_nodup items) hp
    refine ⟨hcache k it c hmg, ?_⟩
    by_cases hce : c.e = true
    · exact Or.inl (hebs2 k it c hmg hce)
    · refine Or.inr ?_
      cases h : c.e
      · rfl
      · exact absurd h hce
  have hfinal : passCompute (reconcileOk st items bounds) items bounds
      = { ids := [], adds := [], cache := (reconcileOk st items bounds).cache,
          nid := (reconcileOk st items bounds).nextId } := by
    rw [passCompute_eq, hD]
    exact hE
  constructor
  · unfold passIdsToRemove
    rw [hfinal]
  · unfold passAdds
    rw [hfinal]

/-- C6 amended witness: after a pass over one enabled item starting from
the empty state, a second pass issues no deletions and no additions. -/
theorem reconcile_idempotent_on_owned_witness :
    passIdsToRemove (reconcileOk initialState [itemMapImage] noBounds)
      [itemMapImage] noBounds = [] ∧
    passAdds (reconcileOk initialState [itemMapImage] noBounds)
      [itemMapImage] noBounds = [] :=
  reconcile_idempotent_on_owned initialState [itemMapImage] noBounds
    (by intro x; simp [initialState, attachCount]) (by simp [initialState])

/-! ## C3 — failure semantics, amended -/

/-- C3 amended: reconcileEffects catches a failure of either batched SDK
call and does not re-raise it (the pass function is total and yields the
state the attempt reached), but the snapshot cache is NOT restored: both
loops mutate the cache before the batched calls run, so after a failed
deleteItems or addItems the cache is exactly what a fully completed pass
would have produced — not the pre-pass cache. -/
theorem reconcile_failure_cache_eq_completed (st : ReconcileState) (items : List Item)
    (bounds : Nat → Option Bounds) (fd fa : Bool) :
    (reconcileEffects st
        { items := items, bounds := bounds, failFind := false,
          failDelete := fd, failAdd := fa }).cache
      = (reconcileOk st items bounds).cache := by
  simp only [reconcileOk, reconcileEffects, reconcileAttempt]
  simp only [Bool.false_eq_true, if_false, ne_eq, and_false]
  split_ifs <;> rfl
